import Mathlib

/-!
# Verification of the `auto_replay` image-scanner core

Shallow embedding of `src/utils/image_scanner.py` (class `ImageScanner`) and
proofs of the frozen claims about it.

Modelling conventions:
* file names are modelled as `List Char` (`Name`);
* a template pixel buffer is abstracted to its dimensions (`Template`), since
  the claims only depend on dimensions and on the correlation scores, which are
  supplied by an oracle;
* Python floats (`threshold`, confidence values) are modelled as exact `ℚ`;
* the filesystem is an oracle `Name → FsEntry` (the `images_folder` path join
  of `load_template` only fixes which directory the oracle describes);
* `cv2` and `mss` are external libraries whose sources are not part of the
  repository; where their behaviour decides a claim the definitions carry a
  `Modelled from the spec:` comment;
* Python exceptions are modelled as explicit error values (`Except`,
  `Option`), so "caught" and "propagated" are visible in the return types.
-/

namespace AutoReplay

/- Batteries marks the arithmetic on `Rat` irreducible, which blocks `decide`
on concrete rational computations; restore the default reducibility locally so
concrete witnesses evaluate. -/
attribute [local semireducible] Rat.add Rat.sub Rat.mul Rat.inv Rat.ofScientific

/-- A template file name (Python `str`), modelled as a list of characters. -/
abbrev Name := List Char

/-- A loaded template image (`cv2.imread` result), abstracted to its
dimensions; `template.shape[:2]` is `(height, width)`. -/
structure Template where
  height : Nat
  width : Nat
deriving DecidableEq

/-- What the filesystem holds under a given name inside `images_folder`:
a decodable image, no file at all (`FileNotFoundError` on load), or a file
that `cv2.imread` cannot decode (`ValueError` on load). -/
inductive FsEntry where
  | image (t : Template)
  | absent
  | undecodable
deriving DecidableEq

/-- The two fatal outcomes of `load_template`: `FileNotFoundError`
(spec: `TemplateNotFound`) and `ValueError` (spec: `TemplateDecodeError`). -/
inductive LoadError where
  | notFound
  | decodeError
deriving DecidableEq

/-- The mutable state of an `ImageScanner` instance: its `template_cache`
dict, modelled as an association list (first binding wins, inserts append). -/
structure ImageScanner where
  cache : List (Name × Template)
deriving DecidableEq

/-- `ImageScanner.load_template` (image_scanner.py:32-61).  Returns the
result, the updated scanner state, and the list of file names the call read
from the filesystem (empty on a cache hit). -/
def load_template (fs : Name → FsEntry) (sc : ImageScanner) (image_name : Name) :
    Except LoadError Template × ImageScanner × List Name :=
  match sc.cache.lookup image_name with
  | some t => (.ok t, sc, [])
  | none =>
    match fs image_name with
    | .absent => (.error .notFound, sc, [image_name])
    | .undecodable => (.error .decodeError, sc, [image_name])
    | .image t => (.ok t, ⟨sc.cache ++ [(image_name, t)]⟩, [image_name])

/-- Executes a sequence of `load_template` calls, keeping only the scanner
state; used to talk about "every later call" on the same instance. -/
def runLoads (fs : Name → FsEntry) : ImageScanner → List Name → ImageScanner
  | sc, [] => sc
  | sc, n :: ns => runLoads fs (load_template fs sc n).2.1 ns

/-- Modelled from the spec: `cv2.matchTemplate` is an external OpenCV call
whose source is not part of this repository.  Per the spec (MatchEngine),
matching computes a correlation surface with "one score per possible top-left
placement", and "a template larger than the buffer yields no candidates".
`score` abstracts the `TM_CCOEFF_NORMED` value at each placement.  The surface
is listed in row-major order (y outer, x inner), the scan order of both
`cv2.minMaxLoc` and `np.where`. -/
def matchSurface (score : Nat → Nat → ℚ) (tw th bw bh : Nat) : List (Nat × Nat × ℚ) :=
  if tw ≤ bw ∧ th ≤ bh then
    (List.range (bh - th + 1)).flatMap fun y =>
      (List.range (bw - tw + 1)).map fun x => (x, y, score x y)
  else []

/-- The `cv2.minMaxLoc` maximum over the surface: the highest score together
with its first (row-major) location, as `minMaxLoc` reports on ties. -/
def bestOnSurface : List (Nat × Nat × ℚ) → Option (Nat × Nat × ℚ)
  | [] => none
  | m :: ms => some (ms.foldl (fun best p => if p.2.2 > best.2.2 then p else best) m)

/-- `ImageScanner.find_template_in_region` (image_scanner.py:88-123) for the
default method `TM_CCOEFF_NORMED`: take the maximum of the correlation
surface, return it if its confidence reaches `threshold`, else `None`. -/
def find_template_in_region (score : Nat → Nat → ℚ) (tw th bw bh : Nat)
    (threshold : ℚ) : Option (Nat × Nat × ℚ) :=
  match bestOnSurface (matchSurface score tw th bw bh) with
  | none => none
  | some (x, y, confidence) =>
    if confidence ≥ threshold then some (x, y, confidence) else none

/-- Squared Euclidean distance between the `(x, y)` fields of two matches.
The source compares `np.sqrt((x-ax)**2 + (y-ay)**2) < min_distance`; both
sides being nonnegative, this is equivalent to comparing the square of the
distance with `min_distance ^ 2`, which avoids irrational numbers. -/
def distSq (m a : Nat × Nat × ℚ) : ℚ :=
  ((m.1 : ℚ) - (a.1 : ℚ)) ^ 2 + ((m.2.1 : ℚ) - (a.2.1 : ℚ)) ^ 2

/-- The squared NMS radius: `(min(template_width, template_height) * 0.5)^2`
for `template_size = (height, width)`. -/
def minDistSq (template_size : Nat × Nat) : ℚ :=
  ((min template_size.2 template_size.1 : ℚ) / 2) ^ 2

/-- One step of the greedy NMS loop of `_remove_overlapping_matches`: keep
`m` unless it is strictly within the NMS radius of an accepted match. -/
def nmsStep (template_size : Nat × Nat) (filtered : List (Nat × Nat × ℚ))
    (m : Nat × Nat × ℚ) : List (Nat × Nat × ℚ) :=
  if filtered.any fun a => distSq m a < minDistSq template_size then filtered
  else filtered ++ [m]

/-- Insert into a confidence-descending list, after every element with
strictly higher confidence (keeps earlier elements first on ties). -/
def insertDesc (m : Nat × Nat × ℚ) : List (Nat × Nat × ℚ) → List (Nat × Nat × ℚ)
  | [] => [m]
  | a :: as => if a.2.2 > m.2.2 then a :: insertDesc m as else m :: a :: as

/-- Stable sort by confidence descending, modelling Python's
`sorted(matches, key=lambda x: x[2], reverse=True)` (Python sorts are
stable, also under `reverse=True`). -/
def sortByConfDesc : List (Nat × Nat × ℚ) → List (Nat × Nat × ℚ)
  | [] => []
  | m :: ms => insertDesc m (sortByConfDesc ms)

/-- `ImageScanner._remove_overlapping_matches` (image_scanner.py:444-483):
sort by confidence descending, then greedily accept each match whose center
is not strictly within `0.5 * min(template_width, template_height)` of an
already accepted match.  `template_size` is `template.shape[:2] = (h, w)`. -/
def _remove_overlapping_matches (matchList : List (Nat × Nat × ℚ))
    (template_size : Nat × Nat) : List (Nat × Nat × ℚ) :=
  if matchList.isEmpty then matchList
  else (sortByConfDesc matchList).foldl (nmsStep template_size) []

/-- The raw above-threshold collection step of `find_all_templates_in_region`
(image_scanner.py:429-436): every placement whose score reaches `threshold`,
in `np.where` row-major order. -/
def rawMatches (score : Nat → Nat → ℚ) (tw th bw bh : Nat) (threshold : ℚ) :
    List (Nat × Nat × ℚ) :=
  (matchSurface score tw th bw bh).filter fun m => m.2.2 ≥ threshold

/-- `ImageScanner.find_all_templates_in_region` (image_scanner.py:409-442):
collect every placement whose score reaches `threshold`, then, when any were
found, pass them through `_remove_overlapping_matches` before returning. -/
def find_all_templates_in_region (score : Nat → Nat → ℚ) (tw th bw bh : Nat)
    (threshold : ℚ) : List (Nat × Nat × ℚ) :=
  if (rawMatches score tw th bw bh threshold).isEmpty then
    rawMatches score tw th bw bh threshold
  else _remove_overlapping_matches (rawMatches score tw th bw bh threshold) (th, tw)

/-- `ImageScanner._scan_standard_image` (image_scanner.py:162-205).  The whole
body sits in a `try`/`except Exception` that prints and returns `None`, so a
load failure or a capture failure (`capture = none`) yields `none` exactly like
a below-threshold match.  `capture` models the one `capture_screen_region`
call (its dimensions, or `none` for a raised capture error); `score` is the
correlation oracle for this template/capture pair; `bounding_box` is the
Python `(x, y, width, height)` tuple. -/
def _scan_standard_image (fs : Name → FsEntry) (capture : Option (Nat × Nat))
    (score : Nat → Nat → ℚ) (sc : ImageScanner) (image_name : Name)
    (bounding_box : Int × Int × Int × Int) (threshold : ℚ)
    (click_offset : Int × Int) : Option (Int × Int) × ImageScanner :=
  match load_template fs sc image_name with
  | (.error _, sc', _) => (none, sc')
  | (.ok t, sc', _) =>
    match capture with
    | none => (none, sc')
    | some (bw, bh) =>
      match find_template_in_region score t.width t.height bw bh threshold with
      | none => (none, sc')
      | some (x, y, _) =>
        (some (bounding_box.1 + ((x + t.width / 2 : Nat) : Int) + click_offset.1,
               bounding_box.2.1 + ((y + t.height / 2 : Nat) : Int) + click_offset.2),
         sc')

/-- `ImageScanner._scan_for_all_images_standard` (image_scanner.py:527-568).
Same `try`/`except Exception` shape: any failure yields the empty list, the
normal "nothing found" result. -/
def _scan_for_all_images_standard (fs : Name → FsEntry) (capture : Option (Nat × Nat))
    (score : Nat → Nat → ℚ) (sc : ImageScanner) (image_name : Name)
    (bounding_box : Int × Int × Int × Int) (threshold : ℚ)
    (click_offset : Int × Int) : List (Int × Int) × ImageScanner :=
  match load_template fs sc image_name with
  | (.error _, sc', _) => ([], sc')
  | (.ok t, sc', _) =>
    match capture with
    | none => ([], sc')
    | some (bw, bh) =>
      ((find_all_templates_in_region score t.width t.height bw bh threshold).map
        fun m =>
          (bounding_box.1 + ((m.1 + t.width / 2 : Nat) : Int) + click_offset.1,
           bounding_box.2.1 + ((m.2.1 + t.height / 2 : Nat) : Int) + click_offset.2),
       sc')

/-- Python's `image_name.rsplit('.', 1)`: split at the last `'.'`, returning
`some (before, after)`, or `none` when the name contains no `'.'`. -/
def rsplitDot : Name → Option (Name × Name)
  | [] => none
  | c :: cs =>
    match rsplitDot cs with
    | some (b, e) => some (c :: b, e)
    | none => if c = '.' then some ([], cs) else none

/-- The default extension `'png'` used when a name has no `'.'`. -/
def pngExt : Name := ['p', 'n', 'g']

/-- Lines 300-304 of image_scanner.py: `(base_name, extension)` from
`rsplit('.', 1)`, defaulting the extension to `'png'`. -/
def splitName (image_name : Name) : Name × Name :=
  match rsplitDot image_name with
  | some (b, e) => (b, e)
  | none => (image_name, pngExt)

/-- The fixed `state_suffixes` list of `_generate_image_variations`
(image_scanner.py:307-310), in source order. -/
def state_suffixes : List Name :=
  ["-normal", "-focused", "-focussed", "-hover", "-pressed",
   "-active", "-disabled", "-selected", "-highlighted"].map String.toList

/-- The `if variation not in variations: variations.append(variation)`
pattern used throughout `_generate_image_variations`. -/
def appendIfNew (vs : List Name) (v : Name) : List Name :=
  if v ∈ vs then vs else vs ++ [v]

/-- `ImageScanner._generate_image_variations` (image_scanner.py:287-338).
`find?` is the source's first-match-then-`break` loop over suffixes; the
`foldl` over `filter (· ≠ suf)` is its inner `for other_suffix ...:
if other_suffix != suffix:` loop. -/
def _generate_image_variations (image_name : Name) : List Name :=
  let base_name := (splitName image_name).1
  let extension := (splitName image_name).2
  match state_suffixes.find? (fun suf => suf.isSuffixOf base_name) with
  | some suf =>
    let root_name := base_name.take (base_name.length - suf.length)
    let step1 := (state_suffixes.filter (fun other => other ≠ suf)).foldl
      (fun vs other => appendIfNew vs (root_name ++ other ++ '.' :: extension))
      [image_name]
    appendIfNew step1 (root_name ++ '.' :: extension)
  | none =>
    state_suffixes.foldl
      (fun vs suf => appendIfNew vs (base_name ++ suf ++ '.' :: extension))
      [image_name]

/-- The progressive `thresholds` list of `_scan_animated_image`
(image_scanner.py:222-227): six entries, each clamped by `max(0.1, t)`. -/
def animThresholds (base_threshold : ℚ) : List ℚ :=
  [base_threshold, base_threshold - 0.05, base_threshold - 0.1,
   base_threshold - 0.15, base_threshold - 0.2, base_threshold - 0.25].map
    fun t => max 0.1 t

/-- The innermost `for variation in image_variations` loop of
`_scan_animated_image` (image_scanner.py:241-278), threading the scanner
state through the `self.load_template(variation)` calls.  A
`FileNotFoundError` or any other exception from a variation is caught and the
loop continues; a successful `find_template_in_region` returns the absolute
click coordinate immediately.  `score v a x y` is the correlation oracle for
variant `v` against the capture of attempt `a`. -/
def scanVariations (fs : Name → FsEntry) (score : Name → Nat → Nat → Nat → ℚ)
    (bounding_box : Int × Int × Int × Int) (click_offset : Int × Int)
    (attempt bw bh : Nat) (threshold : ℚ) :
    ImageScanner → List Name → Option (Int × Int) × ImageScanner
  | sc, [] => (none, sc)
  | sc, v :: vs =>
    match load_template fs sc v with
    | (.error _, sc', _) =>
      scanVariations fs score bounding_box click_offset attempt bw bh threshold sc' vs
    | (.ok t, sc', _) =>
      match find_template_in_region (score v attempt) t.width t.height bw bh threshold with
      | none =>
        scanVariations fs score bounding_box click_offset attempt bw bh threshold sc' vs
      | some (x, y, _) =>
        (some (bounding_box.1 + ((x + t.width / 2 : Nat) : Int) + click_offset.1,
               bounding_box.2.1 + ((y + t.height / 2 : Nat) : Int) + click_offset.2),
         sc')

/-- The middle `for threshold in thresholds` loop of `_scan_animated_image`
(image_scanner.py:240). -/
def scanThresholds (fs : Name → FsEntry) (score : Name → Nat → Nat → Nat → ℚ)
    (bounding_box : Int × Int × Int × Int) (click_offset : Int × Int)
    (attempt bw bh : Nat) (vars : List Name) :
    ImageScanner → List ℚ → Option (Int × Int) × ImageScanner
  | sc, [] => (none, sc)
  | sc, t :: ts =>
    match scanVariations fs score bounding_box click_offset attempt bw bh t sc vars with
    | (some r, sc') => (some r, sc')
    | (none, sc') =>
      scanThresholds fs score bounding_box click_offset attempt bw bh vars sc' ts

/-- The outer `for attempt in range(max_attempts)` loop of
`_scan_animated_image` (image_scanner.py:232-282).  `capture a` models the
fresh `capture_screen_region` call of attempt `a` (`none` = raised capture
error, which the source catches with `continue`). -/
def scanAttempts (capture : Nat → Option (Nat × Nat)) (fs : Name → FsEntry)
    (score : Name → Nat → Nat → Nat → ℚ) (bounding_box : Int × Int × Int × Int)
    (click_offset : Int × Int) (ths : List ℚ) (vars : List Name) :
    ImageScanner → List Nat → Option (Int × Int) × ImageScanner
  | sc, [] => (none, sc)
  | sc, a :: as =>
    match capture a with
    | none => scanAttempts capture fs score bounding_box click_offset ths vars sc as
    | some (bw, bh) =>
      match scanThresholds fs score bounding_box click_offset a bw bh vars sc ths with
      | (some r, sc') => (some r, sc')
      | (none, sc') =>
        scanAttempts capture fs score bounding_box click_offset ths vars sc' as

/-- `ImageScanner._scan_animated_image` (image_scanner.py:207-285): the
variation list and threshold schedule are computed once, then the nested
attempt/threshold/variation loops run; `time.sleep` and `print` calls are
dropped (no observable effect on the result). -/
def _scan_animated_image (capture : Nat → Option (Nat × Nat)) (fs : Name → FsEntry)
    (score : Name → Nat → Nat → Nat → ℚ) (sc : ImageScanner) (image_name : Name)
    (bounding_box : Int × Int × Int × Int) (base_threshold : ℚ)
    (click_offset : Int × Int) (max_attempts : Nat) :
    Option (Int × Int) × ImageScanner :=
  scanAttempts capture fs score bounding_box click_offset
    (animThresholds base_threshold) (_generate_image_variations image_name)
    sc (List.range max_attempts)

/-- The pairwise NMS separation property the claims talk about. -/
def Separated (template_size : Nat × Nat) (l : List (Nat × Nat × ℚ)) : Prop :=
  ∀ p ∈ l, ∀ q ∈ l, p ≠ q → minDistSq template_size ≤ distSq p q

/-- The first element (in list order) attaining the maximal confidence. -/
def firstMax : List (Nat × Nat × ℚ) → Option (Nat × Nat × ℚ)
  | [] => none
  | m :: ms =>
    match firstMax ms with
    | none => some m
    | some b => if b.2.2 > m.2.2 then some b else some m

/-- The scanner cache agrees with the filesystem: every cached template is
what the filesystem holds under that name.  Holds for a fresh scanner and is
preserved by `load_template`, which only caches what it just read. -/
def CacheConsistent (fs : Name → FsEntry) (sc : ImageScanner) : Prop :=
  ∀ n t, sc.cache.lookup n = some t → fs n = .image t

/-- The stateless per-variant action of one animated-scan iteration: load the
variant from the filesystem (skipping it when absent or undecodable), run
`find_template_in_region` against the capture of `attempt`, and on success
produce the absolute click coordinate. -/
def specFindVariant (fs : Name → FsEntry) (score : Name → Nat → Nat → Nat → ℚ)
    (bounding_box : Int × Int × Int × Int) (click_offset : Int × Int)
    (attempt bw bh : Nat) (threshold : ℚ) (v : Name) : Option (Int × Int) :=
  match fs v with
  | .image t =>
    match find_template_in_region (score v attempt) t.width t.height bw bh threshold with
    | none => none
    | some (x, y, _) =>
      some (bounding_box.1 + ((x + t.width / 2 : Nat) : Int) + click_offset.1,
            bounding_box.2.1 + ((y + t.height / 2 : Nat) : Int) + click_offset.2)
  | .absent => none
  | .undecodable => none

/-- One attempt of the animated scan, stateless: capture (a failure yields
nothing for this attempt), then first-success over thresholds and variants. -/
def specAttempt (capture : Nat → Option (Nat × Nat)) (fs : Name → FsEntry)
    (score : Name → Nat → Nat → Nat → ℚ) (bounding_box : Int × Int × Int × Int)
    (click_offset : Int × Int) (ths : List ℚ) (vars : List Name) (a : Nat) :
    Option (Int × Int) :=
  match capture a with
  | none => none
  | some (bw, bh) =>
    ths.findSome? fun t => vars.findSome? fun v =>
      specFindVariant fs score bounding_box click_offset a bw bh t v

/-- The whole animated search, stateless, over explicit attempt and variant
lists: first success over attempts, thresholds, variants in that order. -/
def specSearchOn (capture : Nat → Option (Nat × Nat)) (fs : Name → FsEntry)
    (score : Name → Nat → Nat → Nat → ℚ) (bounding_box : Int × Int × Int × Int)
    (click_offset : Int × Int) (ths : List ℚ) (attempts : List Nat)
    (vars : List Name) : Option (Int × Int) :=
  attempts.findSome?
    (specAttempt capture fs score bounding_box click_offset ths vars)

/-- Definition following the spec's words (C1): the six-entry threshold
schedule `[base, base-0.05, base-0.10, base-0.15, base-0.20, base-0.25]`,
each entry clamped to a floor of `0.1`. -/
def specThresholdSchedule (base : ℚ) : List ℚ :=
  [base, base - 0.05, base - 0.10, base - 0.15, base - 0.20, base - 0.25].map
    fun t => max 0.1 t

/-- Definition following the spec's words (C1): `locateAnimated` as one flat
first-success search over every `(attempt, threshold, variant)` triple in
lexicographic order — attempts outermost, then the threshold schedule, then
the variant names innermost.  Each triple uses the fresh capture of its
attempt, and a successful `findBest` yields the absolute screen center of
the match (shifted by the caller's click offset); `none` only after every
triple of every attempt has failed. -/
def locateAnimatedSpec (capture : Nat → Option (Nat × Nat)) (fs : Name → FsEntry)
    (score : Name → Nat → Nat → Nat → ℚ) (image_name : Name)
    (bounding_box : Int × Int × Int × Int) (click_offset : Int × Int) (base : ℚ)
    (max_attempts : Nat) : Option (Int × Int) :=
  ((List.range max_attempts).flatMap fun a =>
    (specThresholdSchedule base).flatMap fun t =>
      (_generate_image_variations image_name).map fun v => (a, t, v)).findSome?
    fun atv =>
      match capture atv.1 with
      | none => none
      | some (bw, bh) =>
        specFindVariant fs score bounding_box click_offset atv.1 bw bh atv.2.1 atv.2.2

/-! ### Generic list lemmas -/

theorem findSome?_congrOn {α β : Type} (f g : α → Option β) (l : List α)
    (h : ∀ x ∈ l, f x = g x) : l.findSome? f = l.findSome? g := by
  induction l with
  | nil => rfl
  | cons a as ih =>
    simp only [List.findSome?_cons, h a (List.mem_cons_self a as)]
    cases g a with
    | none => exact ih fun x hx => h x (List.mem_cons_of_mem a hx)
    | some b => rfl

theorem findSome?_of_forall_none {α β : Type} (f : α → Option β) (l : List α)
    (h : ∀ x ∈ l, f x = none) : l.findSome? f = none := by
  induction l with
  | nil => rfl
  | cons a as ih =>
    simp only [List.findSome?_cons, h a (List.mem_cons_self a as)]
    exact ih fun x hx => h x (List.mem_cons_of_mem a hx)

theorem findSome?_filterOut {α β : Type} (p : α → Bool) (f : α → Option β) (l : List α)
    (h : ∀ x ∈ l, p x = false → f x = none) :
    l.findSome? f = (l.filter p).findSome? f := by
  induction l with
  | nil => rfl
  | cons a as ih =>
    have ih' := ih fun x hx => h x (List.mem_cons_of_mem a hx)
    by_cases hp : p a
    · rw [List.filter_cons_of_pos hp]
      simp only [List.findSome?_cons]
      cases f a with
      | none => exact ih'
      | some b => rfl
    · have hfa : f a = none := h a (List.mem_cons_self a as) (by simpa using hp)
      rw [List.filter_cons_of_neg (by simpa using hp)]
      simp only [List.findSome?_cons, hfa]
      exact ih'

theorem findSome?_append {α β : Type} (l₁ l₂ : List α) (f : α → Option β) :
    (l₁ ++ l₂).findSome? f =
      match l₁.findSome? f with
      | some b => some b
      | none => l₂.findSome? f := by
  induction l₁ with
  | nil => rfl
  | cons a as ih =>
    simp only [List.cons_append, List.findSome?_cons]
    cases f a with
    | none => exact ih
    | some b => rfl

theorem findSome?_flatMap {α β γ : Type} (l : List α) (g : α → List β) (f : β → Option γ) :
    (l.flatMap g).findSome? f = l.findSome? fun a => (g a).findSome? f := by
  induction l with
  | nil => rfl
  | cons a as ih =>
    simp only [List.flatMap_cons, List.findSome?_cons, findSome?_append]
    cases (g a).findSome? f with
    | none => exact ih
    | some b => rfl

theorem findSome?_map {α β γ : Type} (g : α → β) (l : List α) (f : β → Option γ) :
    (l.map g).findSome? f = l.findSome? (f ∘ g) := by
  induction l with
  | nil => rfl
  | cons a as ih =>
    simp only [List.map_cons, List.findSome?_cons, Function.comp]
    cases f (g a) with
    | none => exact ih
    | some b => rfl

theorem lookup_append_some {α β : Type} [BEq α] {l₁ l₂ : List (α × β)} {k : α} {v : β}
    (h : l₁.lookup k = some v) : (l₁ ++ l₂).lookup k = some v := by
  induction l₁ with
  | nil => simp [List.lookup] at h
  | cons p ps ih =>
    obtain ⟨a, b⟩ := p
    simp only [List.lookup, List.cons_append] at h ⊢
    cases hk : k == a with
    | true => rw [hk] at h; simpa using h
    | false => rw [hk] at h; exact ih h

theorem lookup_append_none {α β : Type} [BEq α] {l₁ : List (α × β)} (l₂ : List (α × β))
    {k : α} (h : l₁.lookup k = none) : (l₁ ++ l₂).lookup k = l₂.lookup k := by
  induction l₁ with
  | nil => rfl
  | cons p ps ih =>
    obtain ⟨a, b⟩ := p
    simp only [List.lookup, List.cons_append] at h ⊢
    cases hk : k == a with
    | true => rw [hk] at h; simp at h
    | false => rw [hk] at h; exact ih h

/-! ### Cache behaviour of `load_template` (claim C9 infrastructure) -/

theorem load_template_of_hit {fs : Name → FsEntry} {sc : ImageScanner} {n : Name}
    {t : Template} (h : sc.cache.lookup n = some t) :
    load_template fs sc n = (.ok t, sc, []) := by
  unfold load_template
  rw [h]

theorem load_template_cache_grows (fs : Name → FsEntry) (sc : ImageScanner) (n : Name) :
    ∃ ext, (load_template fs sc n).2.1.cache = sc.cache ++ ext := by
  unfold load_template
  cases h : sc.cache.lookup n with
  | some t => exact ⟨[], by simp⟩
  | none =>
    cases fs n with
    | image t => exact ⟨[(n, t)], rfl⟩
    | absent => exact ⟨[], by simp⟩
    | undecodable => exact ⟨[], by simp⟩

theorem load_template_eq_of_miss (fs : Name → FsEntry) {sc : ImageScanner} {n : Name}
    (hc : sc.cache.lookup n = none) :
    load_template fs sc n =
      (match fs n with
       | .absent => (.error .notFound, sc, [n])
       | .undecodable => (.error .decodeError, sc, [n])
       | .image t => (.ok t, ⟨sc.cache ++ [(n, t)]⟩, [n])) := by
  unfold load_template
  rw [hc]

theorem load_template_lookup_of_ok {fs : Name → FsEntry} {sc : ImageScanner} {n : Name}
    {t : Template} (h : (load_template fs sc n).1 = .ok t) :
    (load_template fs sc n).2.1.cache.lookup n = some t := by
  cases hc : sc.cache.lookup n with
  | some t' =>
    have heq : load_template fs sc n = (.ok t', sc, []) := load_template_of_hit hc
    rw [heq] at h ⊢
    injection h with h
    subst h
    simpa using hc
  | none =>
    have heq := load_template_eq_of_miss fs hc
    cases hf : fs n with
    | image t' =>
      rw [hf] at heq
      rw [heq] at h ⊢
      injection h with h
      subst h
      exact (lookup_append_none _ hc).trans (by simp [List.lookup])
    | absent =>
      rw [hf] at heq
      rw [heq] at h
      simp at h
    | undecodable =>
      rw [hf] at heq
      rw [heq] at h
      simp at h

theorem load_template_lookup_mono {fs : Name → FsEntry} {sc : ImageScanner}
    {n : Name} {t : Template} (m : Name) (h : sc.cache.lookup n = some t) :
    (load_template fs sc m).2.1.cache.lookup n = some t := by
  obtain ⟨ext, hext⟩ := load_template_cache_grows fs sc m
  rw [hext]
  exact lookup_append_some h

theorem runLoads_lookup_mono {fs : Name → FsEntry} {sc : ImageScanner}
    {n : Name} {t : Template} (ns : List Name) (h : sc.cache.lookup n = some t) :
    (runLoads fs sc ns).cache.lookup n = some t := by
  induction ns generalizing sc with
  | nil => exact h
  | cons m ms ih => exact ih (load_template_lookup_mono m h)

theorem runLoads_cache_grows (fs : Name → FsEntry) (sc : ImageScanner) (ns : List Name) :
    ∃ ext, (runLoads fs sc ns).cache = sc.cache ++ ext := by
  induction ns generalizing sc with
  | nil => exact ⟨[], by simp [runLoads]⟩
  | cons m ms ih =>
    obtain ⟨e₁, he₁⟩ := load_template_cache_grows fs sc m
    obtain ⟨e₂, he₂⟩ := ih ((load_template fs sc m).2.1)
    exact ⟨e₁ ++ e₂, by rw [runLoads, he₂, he₁, List.append_assoc]⟩

/-- C9: a template file is read and decoded at most once per `ImageScanner`
instance: once `load_template fs sc n` succeeds with template `t`, then after
any further sequence `ns` of `load_template` calls, calling
`load_template` on `n` again returns the cached `t`, leaves the state
untouched, and performs no filesystem reads (`[]`); moreover the cache only
ever grows (the original entries survive as a prefix of the final cache). -/
theorem c9_load_template_caches_forever (fs : Name → FsEntry) (sc : ImageScanner)
    (n : Name) (t : Template) (ns : List Name)
    (h : (load_template fs sc n).1 = .ok t) :
    load_template fs (runLoads fs (load_template fs sc n).2.1 ns) n =
      (.ok t, runLoads fs (load_template fs sc n).2.1 ns, []) ∧
    ∃ ext, (runLoads fs (load_template fs sc n).2.1 ns).cache = sc.cache ++ ext := by
  constructor
  · exact load_template_of_hit (runLoads_lookup_mono ns (load_template_lookup_of_ok h))
  · obtain ⟨e₁, he₁⟩ := load_template_cache_grows fs sc n
    obtain ⟨e₂, he₂⟩ := runLoads_cache_grows fs (load_template fs sc n).2.1 ns
    exact ⟨e₁ ++ e₂, by rw [he₂, he₁, List.append_assoc]⟩

/-- Witness for C9 at a concrete instance: an empty-cache scanner, a
filesystem holding one decodable image, one interleaved load of another
(missing) name. -/
theorem c9_load_template_caches_forever_witness :
    load_template
        (fun n => if n = ['a'] then .image ⟨2, 3⟩ else .absent)
        (runLoads (fun n => if n = ['a'] then .image ⟨2, 3⟩ else .absent)
          (load_template (fun n => if n = ['a'] then .image ⟨2, 3⟩ else .absent) ⟨[]⟩ ['a']).2.1
          [['b']]) ['a'] =
      (.ok ⟨2, 3⟩,
       runLoads (fun n => if n = ['a'] then .image ⟨2, 3⟩ else .absent)
         (load_template (fun n => if n = ['a'] then .image ⟨2, 3⟩ else .absent) ⟨[]⟩ ['a']).2.1
         [['b']], []) ∧
    ∃ ext, (runLoads (fun n => if n = ['a'] then .image ⟨2, 3⟩ else .absent)
        (load_template (fun n => if n = ['a'] then .image ⟨2, 3⟩ else .absent) ⟨[]⟩ ['a']).2.1
        [['b']]).cache = (⟨[]⟩ : ImageScanner).cache ++ ext :=
  c9_load_template_caches_forever
    (fun n => if n = ['a'] then .image ⟨2, 3⟩ else .absent) ⟨[]⟩ ['a'] ⟨2, 3⟩ [['b']]
    (by rfl)

/-- C5: a template strictly wider or taller than the captured buffer yields
no candidates and no error: `find_template_in_region` returns `none` and
`find_all_templates_in_region` returns `[]`. -/
theorem c5_oversized_template_no_candidates (score : Nat → Nat → ℚ)
    (tw th bw bh : Nat) (threshold : ℚ) (h : bw < tw ∨ bh < th) :
    find_template_in_region score tw th bw bh threshold = none ∧
    find_all_templates_in_region score tw th bw bh threshold = [] := by
  have hsurf : matchSurface score tw th bw bh = [] := by
    unfold matchSurface
    rw [if_neg]
    rintro ⟨h₁, h₂⟩
    rcases h with h | h
    · exact absurd h₁ (Nat.not_le_of_lt h)
    · exact absurd h₂ (Nat.not_le_of_lt h)
  constructor
  · unfold find_template_in_region
    rw [hsurf]
    rfl
  · unfold find_all_templates_in_region rawMatches
    rw [hsurf]
    rfl

/-- Witness for C5 with a 2×1 template against a 1×1 buffer. -/
theorem c5_oversized_template_no_candidates_witness :
    find_template_in_region (fun _ _ => 1) 2 1 1 1 (1/2) = none ∧
    find_all_templates_in_region (fun _ _ => 1) 2 1 1 1 (1/2) = [] :=
  c5_oversized_template_no_candidates (fun _ _ => 1) 2 1 1 1 (1/2) (by decide)

/-! ### Claim C2: error handling of the standard scans -/

/-- C2 counterexample: with an empty cache and a filesystem where the
template file is missing, `_scan_standard_image` returns `none` — the very
value a present-but-unmatched template produces — and
`_scan_for_all_images_standard` returns `[]`.  The `except Exception` blocks
at image_scanner.py:203-205 and 566-568 swallow `FileNotFoundError`,
`ValueError` and capture errors, so nothing propagates and the caller cannot
tell a broken asset from "no match". -/
theorem c2_counterexample :
    (_scan_standard_image (fun _ => .absent) (some (1, 1)) (fun _ _ => 0) ⟨[]⟩
        ['x'] (0, 0, 1, 1) (8/10) (0, 0)).1 = none ∧
    (_scan_standard_image (fun _ => .image ⟨1, 1⟩) (some (1, 1)) (fun _ _ => 0) ⟨[]⟩
        ['x'] (0, 0, 1, 1) (8/10) (0, 0)).1 = none ∧
    (_scan_for_all_images_standard (fun _ => .absent) (some (1, 1)) (fun _ _ => 0) ⟨[]⟩
        ['x'] (0, 0, 1, 1) (8/10) (0, 0)).1 = [] := by
  refine ⟨rfl, ?_, rfl⟩
  decide

/-- C2 (amended): in `scan_for_image`/`scan_for_all_images` with
`animated_image=false`, a missing template file, an undecodable template file
and a failed screen capture are caught inside `_scan_standard_image` /
`_scan_for_all_images_standard` and converted to the normal no-match result
(`None` resp. `[]`); they do not propagate to the caller and are not
distinguishable from "no match". -/
theorem c2_amended_errors_swallowed (fs : Name → FsEntry) (capture : Option (Nat × Nat))
    (score : Nat → Nat → ℚ) (sc : ImageScanner) (image_name : Name)
    (bounding_box : Int × Int × Int × Int) (threshold : ℚ) (click_offset : Int × Int) :
    (sc.cache.lookup image_name = none →
      (fs image_name = .absent ∨ fs image_name = .undecodable) →
      (_scan_standard_image fs capture score sc image_name bounding_box threshold
          click_offset).1 = none ∧
      (_scan_for_all_images_standard fs capture score sc image_name bounding_box threshold
          click_offset).1 = []) ∧
    (capture = none →
      (_scan_standard_image fs capture score sc image_name bounding_box threshold
          click_offset).1 = none ∧
      (_scan_for_all_images_standard fs capture score sc image_name bounding_box threshold
          click_offset).1 = []) := by
  constructor
  · intro hc hf
    have heq := load_template_eq_of_miss fs hc
    have herr : ∃ e sc' r, load_template fs sc image_name = (.error e, sc', r) := by
      rcases hf with hf | hf <;> rw [hf] at heq
      · exact ⟨_, _, _, heq⟩
      · exact ⟨_, _, _, heq⟩
    obtain ⟨e, sc', r, herr⟩ := herr
    constructor
    · unfold _scan_standard_image
      rw [herr]
    · unfold _scan_for_all_images_standard
      rw [herr]
  · intro hcap
    subst hcap
    cases hl : load_template fs sc image_name with
    | mk res p =>
      obtain ⟨sc', r⟩ := p
      cases res with
      | error e =>
        constructor
        · unfold _scan_standard_image
          rw [hl]
        · unfold _scan_for_all_images_standard
          rw [hl]
      | ok t =>
        constructor
        · unfold _scan_standard_image
          rw [hl]
        · unfold _scan_for_all_images_standard
          rw [hl]

/-- Witness for the amended C2 at a concrete undecodable template file and,
separately, at a concrete failed capture. -/
theorem c2_amended_errors_swallowed_witness :
    ((_scan_standard_image (fun _ => .undecodable) (some (5, 5)) (fun _ _ => 1) ⟨[]⟩
        ['x'] (0, 0, 5, 5) (8/10) (0, 0)).1 = none ∧
     (_scan_for_all_images_standard (fun _ => .undecodable) (some (5, 5)) (fun _ _ => 1)
        ⟨[]⟩ ['x'] (0, 0, 5, 5) (8/10) (0, 0)).1 = []) ∧
    ((_scan_standard_image (fun _ => .image ⟨1, 1⟩) none (fun _ _ => 1) ⟨[]⟩
        ['x'] (0, 0, 5, 5) (8/10) (0, 0)).1 = none ∧
     (_scan_for_all_images_standard (fun _ => .image ⟨1, 1⟩) none (fun _ _ => 1) ⟨[]⟩
        ['x'] (0, 0, 5, 5) (8/10) (0, 0)).1 = []) :=
  ⟨(c2_amended_errors_swallowed (fun _ => .undecodable) (some (5, 5)) (fun _ _ => 1) ⟨[]⟩
      ['x'] (0, 0, 5, 5) (8/10) (0, 0)).1 (by rfl) (Or.inr rfl),
   (c2_amended_errors_swallowed (fun _ => .image ⟨1, 1⟩) none (fun _ _ => 1) ⟨[]⟩
      ['x'] (0, 0, 5, 5) (8/10) (0, 0)).2 rfl⟩

/-! ### NMS infrastructure: membership, sortedness, separation -/

theorem distSq_comm (m a : Nat × Nat × ℚ) : distSq m a = distSq a m := by
  unfold distSq
  ring

theorem mem_insertDesc {x m : Nat × Nat × ℚ} {l : List (Nat × Nat × ℚ)} :
    x ∈ insertDesc m l ↔ x = m ∨ x ∈ l := by
  induction l with
  | nil => simp [insertDesc]
  | cons a as ih =>
    unfold insertDesc
    by_cases h : a.2.2 > m.2.2
    · rw [if_pos h]
      simp only [List.mem_cons, ih]
      tauto
    · rw [if_neg h]
      simp only [List.mem_cons]

theorem mem_sortByConfDesc {x : Nat × Nat × ℚ} {l : List (Nat × Nat × ℚ)} :
    x ∈ sortByConfDesc l ↔ x ∈ l := by
  induction l with
  | nil => simp [sortByConfDesc]
  | cons m ms ih =>
    rw [sortByConfDesc, mem_insertDesc, List.mem_cons, ih]

theorem length_insertDesc (m : Nat × Nat × ℚ) (l : List (Nat × Nat × ℚ)) :
    (insertDesc m l).length = l.length + 1 := by
  induction l with
  | nil => rfl
  | cons a as ih =>
    unfold insertDesc
    by_cases h : a.2.2 > m.2.2
    · rw [if_pos h]
      simp [ih]
    · rw [if_neg h]
      simp

theorem length_sortByConfDesc (l : List (Nat × Nat × ℚ)) :
    (sortByConfDesc l).length = l.length := by
  induction l with
  | nil => rfl
  | cons m ms ih => simp [sortByConfDesc, length_insertDesc, ih]

theorem sortByConfDesc_eq_nil {l : List (Nat × Nat × ℚ)}
    (h : sortByConfDesc l = []) : l = [] := by
  have := length_sortByConfDesc l
  rw [h] at this
  exact List.length_eq_zero.mp this.symm

theorem pairwise_insertDesc {m : Nat × Nat × ℚ} {l : List (Nat × Nat × ℚ)}
    (h : l.Pairwise fun a b => b.2.2 ≤ a.2.2) :
    (insertDesc m l).Pairwise fun a b => b.2.2 ≤ a.2.2 := by
  induction l with
  | nil => simp [insertDesc]
  | cons a as ih =>
    rw [List.pairwise_cons] at h
    obtain ⟨ha, has⟩ := h
    unfold insertDesc
    by_cases hc : a.2.2 > m.2.2
    · rw [if_pos hc, List.pairwise_cons]
      constructor
      · intro x hx
        rcases mem_insertDesc.mp hx with rfl | hx
        · exact le_of_lt hc
        · exact ha x hx
      · exact ih has
    · rw [if_neg hc, List.pairwise_cons]
      push_neg at hc
      constructor
      · intro x hx
        rcases List.mem_cons.mp hx with rfl | hx
        · exact hc
        · exact le_trans (ha x hx) hc
      · exact List.Pairwise.cons ha has

theorem sortByConfDesc_pairwise (l : List (Nat × Nat × ℚ)) :
    (sortByConfDesc l).Pairwise fun a b => b.2.2 ≤ a.2.2 := by
  induction l with
  | nil => simp [sortByConfDesc]
  | cons m ms ih =>
    rw [sortByConfDesc]
    exact pairwise_insertDesc ih

theorem nmsStep_separated {tsz : Nat × Nat} {acc : List (Nat × Nat × ℚ)}
    {m : Nat × Nat × ℚ} (h : Separated tsz acc) : Separated tsz (nmsStep tsz acc m) := by
  unfold nmsStep
  split
  · exact h
  · rename_i hno
    have hfar : ∀ a ∈ acc, ¬ distSq m a < minDistSq tsz := by
      intro a ha hlt
      exact hno (List.any_eq_true.mpr ⟨a, ha, decide_eq_true hlt⟩)
    intro p hp q hq hpq
    rcases List.mem_append.mp hp with hp1 | hp1
    · rcases List.mem_append.mp hq with hq1 | hq1
      · exact h p hp1 q hq1 hpq
      · have hq2 : q = m := List.mem_singleton.mp hq1
        rw [hq2, distSq_comm]
        exact not_lt.mp (hfar p hp1)
    · have hp2 : p = m := List.mem_singleton.mp hp1
      rcases List.mem_append.mp hq with hq1 | hq1
      · rw [hp2]
        exact not_lt.mp (hfar q hq1)
      · have hq2 : q = m := List.mem_singleton.mp hq1
        exact absurd (hp2.trans hq2.symm) hpq

theorem nmsFold_separated {tsz : Nat × Nat} {acc l : List (Nat × Nat × ℚ)}
    (h : Separated tsz acc) : Separated tsz (l.foldl (nmsStep tsz) acc) := by
  induction l generalizing acc with
  | nil => exact h
  | cons m ms ih => exact ih (nmsStep_separated h)

theorem nmsFold_mono {tsz : Nat × Nat} {acc l : List (Nat × Nat × ℚ)}
    {x : Nat × Nat × ℚ} (hx : x ∈ acc) : x ∈ l.foldl (nmsStep tsz) acc := by
  induction l generalizing acc with
  | nil => exact hx
  | cons m ms ih =>
    apply ih
    unfold nmsStep
    split
    · exact hx
    · exact List.mem_append_left _ hx

theorem nmsFold_subset {tsz : Nat × Nat} {acc l : List (Nat × Nat × ℚ)}
    {x : Nat × Nat × ℚ} (hx : x ∈ l.foldl (nmsStep tsz) acc) : x ∈ acc ∨ x ∈ l := by
  induction l generalizing acc with
  | nil => exact Or.inl hx
  | cons m ms ih =>
    rcases ih hx with h | h
    · unfold nmsStep at h
      split at h
      · exact Or.inl h
      · rcases List.mem_append.mp h with h | h
        · exact Or.inl h
        · rw [List.mem_singleton] at h
          subst h
          exact Or.inr (List.mem_cons_self _ _)
    · exact Or.inr (List.mem_cons_of_mem _ h)

theorem remove_overlapping_separated (matchList : List (Nat × Nat × ℚ))
    (tsz : Nat × Nat) : Separated tsz (_remove_overlapping_matches matchList tsz) := by
  unfold _remove_overlapping_matches
  split
  · rename_i he
    rw [List.isEmpty_iff] at he
    subst he
    intro p hp
    cases hp
  · exact nmsFold_separated fun p hp => by cases hp

theorem find_all_separated (score : Nat → Nat → ℚ) (tw th bw bh : Nat) (threshold : ℚ) :
    Separated (th, tw) (find_all_templates_in_region score tw th bw bh threshold) := by
  unfold find_all_templates_in_region
  split
  · rename_i he
    rw [List.isEmpty_iff] at he
    rw [he]
    intro p hp
    cases hp
  · exact remove_overlapping_separated _ _

/-! ### The first row-major maximum, connecting `findBest` and NMS order -/

theorem firstMax_cons_none {ms : List (Nat × Nat × ℚ)} (m : Nat × Nat × ℚ)
    (h : firstMax ms = none) : firstMax (m :: ms) = some m := by
  rw [firstMax, h]

theorem firstMax_cons_some {ms : List (Nat × Nat × ℚ)} (m : Nat × Nat × ℚ)
    {c : Nat × Nat × ℚ} (h : firstMax ms = some c) :
    firstMax (m :: ms) = if c.2.2 > m.2.2 then some c else some m := by
  rw [firstMax, h]

theorem firstMax_eq_none {l : List (Nat × Nat × ℚ)} : firstMax l = none ↔ l = [] := by
  cases l with
  | nil => simp [firstMax]
  | cons m ms =>
    constructor
    · intro h
      cases hm : firstMax ms with
      | none => rw [firstMax_cons_none m hm] at h; cases h
      | some c =>
        rw [firstMax_cons_some m hm] at h
        by_cases hc : c.2.2 > m.2.2
        · rw [if_pos hc] at h; cases h
        · rw [if_neg hc] at h; cases h
    · intro h
      cases h

theorem firstMax_mem {l : List (Nat × Nat × ℚ)} {b : Nat × Nat × ℚ}
    (h : firstMax l = some b) : b ∈ l := by
  induction l generalizing b with
  | nil => cases h
  | cons m ms ih =>
    cases hm : firstMax ms with
    | none =>
      rw [firstMax_cons_none m hm] at h
      injection h with h
      subst h
      exact List.mem_cons_self _ _
    | some c =>
      rw [firstMax_cons_some m hm] at h
      by_cases hc : c.2.2 > m.2.2
      · rw [if_pos hc] at h
        injection h with h
        subst h
        exact List.mem_cons_of_mem _ (ih hm)
      · rw [if_neg hc] at h
        injection h with h
        subst h
        exact List.mem_cons_self _ _

theorem firstMax_ge {l : List (Nat × Nat × ℚ)} {b : Nat × Nat × ℚ}
    (h : firstMax l = some b) : ∀ x ∈ l, x.2.2 ≤ b.2.2 := by
  induction l generalizing b with
  | nil => intro x hx; cases hx
  | cons m ms ih =>
    intro x hx
    cases hm : firstMax ms with
    | none =>
      rw [firstMax_cons_none m hm] at h
      injection h with h
      subst h
      rcases List.mem_cons.mp hx with rfl | hx
      · exact le_refl _
      · rw [firstMax_eq_none] at hm
        subst hm
        cases hx
    | some c =>
      rw [firstMax_cons_some m hm] at h
      by_cases hc : c.2.2 > m.2.2
      · rw [if_pos hc] at h
        injection h with h
        subst h
        rcases List.mem_cons.mp hx with rfl | hx
        · exact le_of_lt hc
        · exact ih hm x hx
      · rw [if_neg hc] at h
        injection h with h
        subst h
        push_neg at hc
        rcases List.mem_cons.mp hx with rfl | hx
        · exact le_refl _
        · exact le_trans (ih hm x hx) hc

theorem firstMax_step (m a : Nat × Nat × ℚ) (as : List (Nat × Nat × ℚ)) :
    firstMax ((if a.2.2 > m.2.2 then a else m) :: as) = firstMax (m :: a :: as) := by
  cases hm : firstMax as with
  | none =>
    rw [firstMax_cons_none _ hm, firstMax_cons_some m (firstMax_cons_none a hm)]
    by_cases hma : a.2.2 > m.2.2
    · rw [if_pos hma, if_pos hma]
    · rw [if_neg hma, if_neg hma]
  | some c =>
    have h1 := firstMax_cons_some a hm
    rw [firstMax_cons_some _ hm]
    by_cases hma : a.2.2 > m.2.2
    · rw [if_pos hma]
      by_cases hca : c.2.2 > a.2.2
      · rw [if_pos hca] at h1
        rw [firstMax_cons_some m h1, if_pos hca, if_pos (lt_trans hma hca)]
      · rw [if_neg hca] at h1
        rw [firstMax_cons_some m h1, if_neg hca, if_pos hma]
    · rw [if_neg hma]
      by_cases hca : c.2.2 > a.2.2
      · rw [if_pos hca] at h1
        rw [firstMax_cons_some m h1]
      · rw [if_neg hca] at h1
        rw [firstMax_cons_some m h1, if_neg hma,
          if_neg (not_lt.mpr (le_trans (not_lt.mp hca) (not_lt.mp hma)))]

theorem foldl_best_spec (ms : List (Nat × Nat × ℚ)) : ∀ m : Nat × Nat × ℚ,
    some (ms.foldl (fun best p => if p.2.2 > best.2.2 then p else best) m) =
      firstMax (m :: ms) := by
  induction ms with
  | nil =>
    intro m
    rw [firstMax_cons_none m (show firstMax [] = none from rfl)]
    rfl
  | cons a as ih =>
    intro m
    rw [List.foldl_cons]
    show some (as.foldl _ (if a.2.2 > m.2.2 then a else m)) = _
    rw [ih, firstMax_step]

theorem bestOnSurface_eq_firstMax (l : List (Nat × Nat × ℚ)) :
    bestOnSurface l = firstMax l := by
  cases l with
  | nil => rfl
  | cons m ms => exact foldl_best_spec ms m

theorem firstMax_filter {p : Nat × Nat × ℚ → Bool} {l : List (Nat × Nat × ℚ)}
    {b : Nat × Nat × ℚ} (h : firstMax l = some b) (hb : p b = true) :
    firstMax (l.filter p) = some b := by
  induction l generalizing b with
  | nil => cases h
  | cons m ms ih =>
    cases hm : firstMax ms with
    | none =>
      rw [firstMax_cons_none m hm] at h
      injection h with h
      subst h
      rw [firstMax_eq_none] at hm
      subst hm
      rw [List.filter_cons_of_pos hb]
      rfl
    | some c =>
      rw [firstMax_cons_some m hm] at h
      by_cases hcm : c.2.2 > m.2.2
      · rw [if_pos hcm] at h
        injection h with h
        subst h
        have ihc := ih hm hb
        by_cases hmp : p m = true
        · rw [List.filter_cons_of_pos hmp, firstMax_cons_some m ihc, if_pos hcm]
        · rw [List.filter_cons_of_neg (by simpa using hmp)]
          exact ihc
      · rw [if_neg hcm] at h
        injection h with h
        subst h
        push_neg at hcm
        rw [List.filter_cons_of_pos hb]
        cases hf : firstMax (ms.filter p) with
        | none => exact firstMax_cons_none m hf
        | some d =>
          have hdm : d ∈ ms := (List.mem_filter.mp (firstMax_mem hf)).1
          have hdc : d.2.2 ≤ c.2.2 := firstMax_ge hm d hdm
          rw [firstMax_cons_some m hf, if_neg (not_lt.mpr (le_trans hdc hcm))]

theorem sortByConfDesc_head {l : List (Nat × Nat × ℚ)} {b : Nat × Nat × ℚ}
    {bs : List (Nat × Nat × ℚ)} (h : sortByConfDesc l = b :: bs) :
    firstMax l = some b := by
  induction l generalizing b bs with
  | nil => cases h
  | cons m ms ih =>
    rw [sortByConfDesc] at h
    cases hs : sortByConfDesc ms with
    | nil =>
      have hnil := sortByConfDesc_eq_nil hs
      rw [hs] at h
      injection h with h1 h2
      subst h1
      subst hnil
      rfl
    | cons a as =>
      have hfa : firstMax ms = some a := ih hs
      rw [hs] at h
      unfold insertDesc at h
      by_cases hma : a.2.2 > m.2.2
      · rw [if_pos hma] at h
        injection h with h1 h2
        subst h1
        rw [firstMax_cons_some m hfa, if_pos hma]
      · rw [if_neg hma] at h
        injection h with h1 h2
        subst h1
        rw [firstMax_cons_some m hfa, if_neg hma]

/-! ### NMS completeness -/

theorem nmsFold_complete {tsz : Nat × Nat} {l : List (Nat × Nat × ℚ)} :
    ∀ {acc : List (Nat × Nat × ℚ)},
    l.Pairwise (fun a b => b.2.2 ≤ a.2.2) →
    (∀ b ∈ acc, ∀ y ∈ l, y.2.2 ≤ b.2.2) →
    ∀ x ∈ l, x ∈ l.foldl (nmsStep tsz) acc ∨
      ∃ b ∈ l.foldl (nmsStep tsz) acc, x.2.2 ≤ b.2.2 ∧ distSq x b < minDistSq tsz := by
  induction l with
  | nil => intro acc _ _ x hx; cases hx
  | cons m ms ih =>
    intro acc hsort hacc x hx
    rw [List.pairwise_cons] at hsort
    obtain ⟨hm, hms⟩ := hsort
    rw [List.foldl_cons]
    by_cases hover : (acc.any fun a => distSq m a < minDistSq tsz) = true
    · have hrw : nmsStep tsz acc m = acc := by
        unfold nmsStep
        rw [if_pos hover]
      rw [hrw]
      rcases List.mem_cons.mp hx with rfl | hx'
      · right
        rw [List.any_eq_true] at hover
        obtain ⟨a, ha, hov⟩ := hover
        exact ⟨a, nmsFold_mono ha, hacc a ha x (List.mem_cons_self _ _),
          of_decide_eq_true hov⟩
      · exact ih hms (fun b hb y hy => hacc b hb y (List.mem_cons_of_mem _ hy)) x hx'
    · have hrw : nmsStep tsz acc m = acc ++ [m] := by
        unfold nmsStep
        rw [if_neg hover]
      rw [hrw]
      rcases List.mem_cons.mp hx with rfl | hx'
      · left
        exact nmsFold_mono (List.mem_append_right _ (List.mem_singleton.mpr rfl))
      · refine ih hms ?_ x hx'
        intro b hb y hy
        rcases List.mem_append.mp hb with hb | hb
        · exact hacc b hb y (List.mem_cons_of_mem _ hy)
        · rw [List.mem_singleton] at hb
          subst hb
          exact hm y hy

theorem find_all_subset_raw (score : Nat → Nat → ℚ) (tw th bw bh : Nat) (threshold : ℚ) :
    ∀ m ∈ find_all_templates_in_region score tw th bw bh threshold,
      m ∈ rawMatches score tw th bw bh threshold := by
  unfold find_all_templates_in_region
  split
  · intro m hm
    exact hm
  · intro m hm
    unfold _remove_overlapping_matches at hm
    split at hm
    · exact hm
    · rcases nmsFold_subset hm with h | h
      · cases h
      · exact mem_sortByConfDesc.mp h

theorem mem_rawMatches {score : Nat → Nat → ℚ} {tw th bw bh : Nat} {threshold : ℚ}
    {m : Nat × Nat × ℚ} :
    m ∈ rawMatches score tw th bw bh threshold ↔
      m ∈ matchSurface score tw th bw bh ∧ threshold ≤ m.2.2 := by
  unfold rawMatches
  simp [List.mem_filter, ge_iff_le]

theorem find_template_eq_of_best (score : Nat → Nat → ℚ) (tw th bw bh : Nat)
    (threshold : ℚ) {x y : Nat} {c : ℚ}
    (h : bestOnSurface (matchSurface score tw th bw bh) = some (x, y, c))
    (hc : c ≥ threshold) :
    find_template_in_region score tw th bw bh threshold = some (x, y, c) := by
  unfold find_template_in_region
  rw [h]
  show (if c ≥ threshold then some (x, y, c) else none) = some (x, y, c)
  rw [if_pos hc]

/-- The translated-coordinate distance equals the raw-match distance: the
region offset, the `template_size // 2` center shift and the click offset all
cancel. -/
theorem shifted_distSq (bb1 bb2 co1 co2 : Int) (w2 h2 : Nat) (x1 y1 x2 y2 : Nat)
    (c1 c2 : ℚ) :
    (((bb1 + ((x1 + w2 : Nat) : Int) + co1) - (bb1 + ((x2 + w2 : Nat) : Int) + co1) : ℤ) : ℚ) ^ 2
      + (((bb2 + ((y1 + h2 : Nat) : Int) + co2) - (bb2 + ((y2 + h2 : Nat) : Int) + co2) : ℤ) : ℚ) ^ 2
    = distSq (x1, y1, c1) (x2, y2, c2) := by
  unfold distSq
  push_cast
  ring

/-- C3: any two distinct coordinates in the list returned by `locateAll`
(`_scan_for_all_images_standard`, which filters through
`_remove_overlapping_matches`) are at squared Euclidean distance at least
`(0.5 * min(template.width, template.height))^2`; both sides being
nonnegative, this is the claim's "center distance at least
`0.5 * min(w, h)`" stated without square roots. -/
theorem c3_locate_all_separated
    (fs : Name → FsEntry) (capture : Option (Nat × Nat)) (score : Nat → Nat → ℚ)
    (sc : ImageScanner) (image_name : Name) (bounding_box : Int × Int × Int × Int)
    (threshold : ℚ) (click_offset : Int × Int) (t : Template) (sc' : ImageScanner)
    (reads : List Name) (hload : load_template fs sc image_name = (.ok t, sc', reads)) :
    ∀ p ∈ (_scan_for_all_images_standard fs capture score sc image_name bounding_box
        threshold click_offset).1,
    ∀ q ∈ (_scan_for_all_images_standard fs capture score sc image_name bounding_box
        threshold click_offset).1,
    p ≠ q →
    minDistSq (t.height, t.width) ≤
      ((p.1 - q.1 : ℤ) : ℚ) ^ 2 + ((p.2 - q.2 : ℤ) : ℚ) ^ 2 := by
  unfold _scan_for_all_images_standard
  rw [hload]
  cases capture with
  | none =>
    intro p hp
    cases hp
  | some bwbh =>
    obtain ⟨bw, bh⟩ := bwbh
    intro p hp q hq hpq
    rw [List.mem_map] at hp hq
    obtain ⟨m1, hm1, hfm1⟩ := hp
    obtain ⟨m2, hm2, hfm2⟩ := hq
    obtain ⟨x1, y1, c1⟩ := m1
    obtain ⟨x2, y2, c2⟩ := m2
    have hne : ((x1, y1, c1) : Nat × Nat × ℚ) ≠ (x2, y2, c2) := by
      intro he
      exact hpq (by rw [← hfm1, ← hfm2, he])
    have hd := find_all_separated score t.width t.height bw bh threshold
      (x1, y1, c1) hm1 (x2, y2, c2) hm2 hne
    rw [← hfm1, ← hfm2]
    calc minDistSq (t.height, t.width)
        ≤ distSq (x1, y1, c1) (x2, y2, c2) := hd
      _ = _ := (shifted_distSq bounding_box.1 bounding_box.2.1 click_offset.1
          click_offset.2 (t.width / 2) (t.height / 2) x1 y1 x2 y2 c1 c2).symm

/-- Witness for C3: a 2×2 template matched twice in a 3×2 buffer; the two
returned coordinates `(1,1)` and `(2,1)` are at squared distance `1 ≥ 1`. -/
theorem c3_locate_all_separated_witness :
    minDistSq ((⟨2, 2⟩ : Template).height, (⟨2, 2⟩ : Template).width) ≤
      (((1 : Int) - 2 : ℤ) : ℚ) ^ 2 + (((1 : Int) - 1 : ℤ) : ℚ) ^ 2 :=
  c3_locate_all_separated (fun _ => .image ⟨2, 2⟩) (some (3, 2)) (fun _ _ => 1) ⟨[]⟩
    ['x'] (0, 0, 3, 2) (mkRat 1 2) (0, 0) ⟨2, 2⟩ ⟨[(['x'], ⟨2, 2⟩)]⟩ [['x']] (by rfl)
    (1, 1) (by decide) (2, 1) (by decide) (by decide)

/-- C4 counterexample: with a uniform correlation surface (every placement of
a 3×3 template in a 4×4 buffer scores 1), four placements score `≥ 1/2`, yet
`find_all_templates_in_region` returns only `[(0, 0, 1)]`: overlap filtering
IS applied inside it (image_scanner.py:438-441), contradicting
"no overlap filtering applied inside findAll itself". -/
theorem c4_counterexample :
    find_all_templates_in_region (fun _ _ => 1) 3 3 4 4 (mkRat 1 2) = [(0, 0, 1)] ∧
    rawMatches (fun _ _ => 1) 3 3 4 4 (mkRat 1 2) =
      [(0, 0, 1), (1, 0, 1), (0, 1, 1), (1, 1, 1)] := by
  decide

/-- C4 (amended): `find_all_templates_in_region` collects every placement
scoring `≥ threshold` but then applies `_remove_overlapping_matches` to them
internally before returning: every returned match is an above-threshold
placement, and every above-threshold placement is either returned or lies
strictly within the NMS radius of a returned match of at least its
confidence. -/
theorem c4_amended_internal_nms (score : Nat → Nat → ℚ) (tw th bw bh : Nat)
    (threshold : ℚ) :
    (∀ m ∈ find_all_templates_in_region score tw th bw bh threshold,
      m ∈ rawMatches score tw th bw bh threshold) ∧
    (∀ m ∈ rawMatches score tw th bw bh threshold,
      m ∈ find_all_templates_in_region score tw th bw bh threshold ∨
      ∃ b ∈ find_all_templates_in_region score tw th bw bh threshold,
        m.2.2 ≤ b.2.2 ∧ distSq m b < minDistSq (th, tw)) := by
  constructor
  · exact find_all_subset_raw score tw th bw bh threshold
  · intro m hm
    by_cases hne : (rawMatches score tw th bw bh threshold).isEmpty
    · rw [List.isEmpty_iff] at hne
      rw [hne] at hm
      cases hm
    · unfold find_all_templates_in_region _remove_overlapping_matches
      rw [if_neg hne, if_neg hne]
      exact nmsFold_complete
        (sortByConfDesc_pairwise (rawMatches score tw th bw bh threshold))
        (fun b hb => absurd hb (List.not_mem_nil b))
        m (mem_sortByConfDesc.mpr hm)

/-- Witness for the amended C4 on the uniform 3×3-in-4×4 surface, at the
returned placement `(0,0,1)` and at the suppressed placement `(1,0,1)`. -/
theorem c4_amended_internal_nms_witness :
    ((0, 0, 1) : Nat × Nat × ℚ) ∈ rawMatches (fun _ _ => 1) 3 3 4 4 (mkRat 1 2) ∧
    (((1, 0, 1) : Nat × Nat × ℚ) ∈ find_all_templates_in_region (fun _ _ => 1) 3 3 4 4 (mkRat 1 2) ∨
      ∃ b ∈ find_all_templates_in_region (fun _ _ => 1) 3 3 4 4 (mkRat 1 2),
        ((1, 0, 1) : Nat × Nat × ℚ).2.2 ≤ b.2.2 ∧
        distSq (1, 0, 1) b < minDistSq (3, 3)) :=
  ⟨(c4_amended_internal_nms (fun _ _ => 1) 3 3 4 4 (mkRat 1 2)).1 (0, 0, 1) (by decide),
   (c4_amended_internal_nms (fun _ _ => 1) 3 3 4 4 (mkRat 1 2)).2 (1, 0, 1) (by decide)⟩

/-- C8: every match surviving `_remove_overlapping_matches` inside
`find_all_templates_in_region` is one of the placements scoring
`≥ threshold`, and when that raw set is non-empty, the placement
`find_template_in_region` returns (the first row-major maximum) has maximal
confidence among them and always survives suppression. -/
theorem c8_findall_nms_vs_findbest (score : Nat → Nat → ℚ) (tw th bw bh : Nat)
    (threshold : ℚ) :
    (∀ m ∈ find_all_templates_in_region score tw th bw bh threshold,
      m ∈ rawMatches score tw th bw bh threshold) ∧
    (rawMatches score tw th bw bh threshold ≠ [] →
      ∃ b, find_template_in_region score tw th bw bh threshold = some b ∧
        b ∈ find_all_templates_in_region score tw th bw bh threshold ∧
        ∀ m ∈ rawMatches score tw th bw bh threshold, m.2.2 ≤ b.2.2) := by
  constructor
  · exact find_all_subset_raw score tw th bw bh threshold
  · intro hraw
    cases hs : sortByConfDesc (rawMatches score tw th bw bh threshold) with
    | nil => exact absurd (sortByConfDesc_eq_nil hs) hraw
    | cons b bs =>
      have hfb : firstMax (rawMatches score tw th bw bh threshold) = some b :=
        sortByConfDesc_head hs
      have hbraw : b ∈ rawMatches score tw th bw bh threshold := firstMax_mem hfb
      have hbth : threshold ≤ b.2.2 := (mem_rawMatches.mp hbraw).2
      have hbs : b ∈ matchSurface score tw th bw bh := (mem_rawMatches.mp hbraw).1
      cases hS : firstMax (matchSurface score tw th bw bh) with
      | none =>
        rw [firstMax_eq_none] at hS
        rw [hS] at hbs
        cases hbs
      | some b0 =>
        have hb0th : threshold ≤ b0.2.2 := le_trans hbth (firstMax_ge hS b hbs)
        have hfilter : firstMax (rawMatches score tw th bw bh threshold) = some b0 := by
          unfold rawMatches
          exact firstMax_filter hS (decide_eq_true hb0th)
        rw [hfb] at hfilter
        injection hfilter with hbb
        subst hbb
        obtain ⟨x, y, c⟩ := b
        have hnem : ¬ (rawMatches score tw th bw bh threshold).isEmpty = true :=
          fun h => hraw (List.isEmpty_iff.mp h)
        refine ⟨(x, y, c), ?_, ?_, firstMax_ge hfb⟩
        · exact find_template_eq_of_best score tw th bw bh threshold
            ((bestOnSurface_eq_firstMax _).trans hS) hbth
        · unfold find_all_templates_in_region _remove_overlapping_matches
          rw [if_neg hnem, if_neg hnem, hs, List.foldl_cons]
          have hstep : nmsStep (th, tw) [] (x, y, c) = [(x, y, c)] := rfl
          rw [hstep]
          exact nmsFold_mono (List.mem_singleton.mpr rfl)

/-- Witness for C8 on the uniform 3×3-in-4×4 surface with threshold `1/2`. -/
theorem c8_findall_nms_vs_findbest_witness :
    ((0, 0, 1) : Nat × Nat × ℚ) ∈ rawMatches (fun _ _ => 1) 3 3 4 4 (mkRat 1 2) ∧
    (∃ b, find_template_in_region (fun _ _ => 1) 3 3 4 4 (mkRat 1 2) = some b ∧
      b ∈ find_all_templates_in_region (fun _ _ => 1) 3 3 4 4 (mkRat 1 2) ∧
      ∀ m ∈ rawMatches (fun _ _ => 1) 3 3 4 4 (mkRat 1 2), m.2.2 ≤ b.2.2) :=
  ⟨(c8_findall_nms_vs_findbest (fun _ _ => 1) 3 3 4 4 (mkRat 1 2)).1 (0, 0, 1) (by decide),
   (c8_findall_nms_vs_findbest (fun _ _ => 1) 3 3 4 4 (mkRat 1 2)).2 (by decide)⟩

/-! ### Variations (claims C6 and C10) -/

theorem rsplitDot_eq_none {l : Name} : rsplitDot l = none ↔ '.' ∉ l := by
  induction l with
  | nil => simp [rsplitDot]
  | cons c cs ih =>
    rw [rsplitDot]
    cases h : rsplitDot cs with
    | some p =>
      simp only []
      constructor
      · intro hc
        cases hc
      · intro hc
        exact absurd (ih.mpr fun hm => hc (List.mem_cons_of_mem c hm)) (by simp [h])
    | none =>
      by_cases hc : c = '.'
      · rw [if_pos hc]
        simp [hc]
      · rw [if_neg hc]
        simp only [List.mem_cons, true_iff]
        intro hm
        rcases hm with hm | hm
        · exact hc hm.symm
        · exact (ih.mp h) hm

theorem rsplitDot_some {l b e : Name} (h : rsplitDot l = some (b, e)) :
    l = b ++ '.' :: e := by
  induction l generalizing b e with
  | nil => cases h
  | cons c cs ih =>
    rw [rsplitDot] at h
    cases hc : rsplitDot cs with
    | some p =>
      obtain ⟨b', e'⟩ := p
      rw [hc] at h
      injection h with h
      injection h with h1 h2
      subst h1
      subst h2
      rw [List.cons_append]
      rw [← ih hc]
    | none =>
      rw [hc] at h
      by_cases hdot : c = '.'
      · rw [if_pos hdot] at h
        injection h with h
        injection h with h1 h2
        subst h1
        subst h2
        rw [hdot]
        rfl
      · rw [if_neg hdot] at h
        cases h

theorem take_append_self {α : Type} (r s : List α) : (r ++ s).take r.length = r := by
  induction r with
  | nil => rfl
  | cons a as ih => simp [ih]

/-- The guarded-append fold used by `_generate_image_variations` never fires
its dedup guard when the generated names are fresh and pairwise distinct, so
it just appends the image of the list. -/
theorem foldl_appendIfNew {α : Type} (l : List α) (f : α → Name) :
    ∀ init : List Name, (l.map f).Nodup → (∀ b ∈ l, f b ∉ init) →
    l.foldl (fun vs b => appendIfNew vs (f b)) init = init ++ l.map f := by
  induction l with
  | nil =>
    intro init _ _
    simp
  | cons a as ih =>
    intro init hnd hfresh
    rw [List.map_cons, List.nodup_cons] at hnd
    obtain ⟨hfa, hnd⟩ := hnd
    rw [List.foldl_cons]
    have hstep : appendIfNew init (f a) = init ++ [f a] := by
      unfold appendIfNew
      rw [if_neg (hfresh a (List.mem_cons_self _ _))]
    rw [hstep, ih (init ++ [f a]) hnd ?_]
    · rw [List.append_assoc, List.map_cons, List.singleton_append]
    · intro b hb hmem
      rcases List.mem_append.mp hmem with hm | hm
      · exact hfresh b (List.mem_cons_of_mem _ hb) hm
      · rw [List.mem_singleton] at hm
        exact hfa (hm ▸ List.mem_map_of_mem f hb)

theorem state_suffixes_nodup : state_suffixes.Nodup := by decide

theorem state_suffixes_ne_nil : ∀ s ∈ state_suffixes, s ≠ [] := by decide

/-- Cancel a shared tail. -/
theorem append_tail_inj {α : Type} {x o₁ o₂ : List α} (h : o₁ ++ x = o₂ ++ x) :
    o₁ = o₂ :=
  List.append_cancel_right h

/-- `root ++ o₁ ++ x = root ++ o₂ ++ x → o₁ = o₂`. -/
theorem mid_inj {α : Type} {root x o₁ o₂ : List α}
    (h : root ++ o₁ ++ x = root ++ o₂ ++ x) : o₁ = o₂ := by
  rw [List.append_assoc, List.append_assoc] at h
  exact append_tail_inj (List.append_cancel_left h)

/-- The has-a-state-suffix branch of `_generate_image_variations`: the output
is exactly the input, the root recombined with every other suffix (in list
order), and the bare root, in that order, with no duplicate ever generated;
`suf` is the first matching suffix (the source's loop-and-`break`). -/
theorem generate_variations_suffix {image_name suf : Name}
    (hfind : state_suffixes.find?
        (fun s => s.isSuffixOf (splitName image_name).1) = some suf) :
    _generate_image_variations image_name =
      image_name ::
        ((state_suffixes.filter fun other => other ≠ suf).map fun other =>
          (splitName image_name).1.take ((splitName image_name).1.length - suf.length)
            ++ other ++ '.' :: (splitName image_name).2) ++
        [(splitName image_name).1.take ((splitName image_name).1.length - suf.length)
          ++ '.' :: (splitName image_name).2] ∧
    (_generate_image_variations image_name).Nodup := by
  have hsufmem : suf ∈ state_suffixes := List.mem_of_find?_eq_some hfind
  have hsufne : suf ≠ [] := state_suffixes_ne_nil suf hsufmem
  have hsuff : suf.isSuffixOf (splitName image_name).1 = true :=
    @List.find?_some _ (fun s => List.isSuffixOf s (splitName image_name).1) suf
      state_suffixes hfind
  obtain ⟨r, hr⟩ : suf <:+ (splitName image_name).1 :=
    List.isSuffixOf_iff_suffix.mp hsuff
  have hroot : (splitName image_name).1.take
      ((splitName image_name).1.length - suf.length) = r := by
    rw [← hr]
    have hlen : (r ++ suf).length - suf.length = r.length := by
      rw [List.length_append]
      omega
    rw [hlen, take_append_self]
  have hfA : ((state_suffixes.filter fun other => other ≠ suf).map fun other =>
      r ++ other ++ '.' :: (splitName image_name).2).Nodup := by
    refine List.Nodup.map_on ?_ (state_suffixes_nodup.filter _)
    intro o₁ _ o₂ _ he
    exact mid_inj he
  have hfB : ∀ o ∈ state_suffixes.filter (fun other => other ≠ suf),
      r ++ o ++ '.' :: (splitName image_name).2 ≠ image_name := by
    intro o ho he
    have hone : o ≠ suf := by simpa using (List.mem_filter.mp ho).2
    cases hsplit : rsplitDot image_name with
    | some p =>
      obtain ⟨b, e⟩ := p
      have hb : (splitName image_name).1 = b := by
        unfold splitName
        rw [hsplit]
      have he2 : (splitName image_name).2 = e := by
        unfold splitName
        rw [hsplit]
      have hname : image_name = b ++ '.' :: e := rsplitDot_some hsplit
      rw [hb] at hr
      rw [he2, hname, ← hr] at he
      exact hone (mid_inj he)
    | none =>
      have hnd : '.' ∉ image_name := rsplitDot_eq_none.mp hsplit
      apply hnd
      rw [← he, List.append_assoc]
      exact List.mem_append_right _ (List.mem_append_right _ (List.mem_cons_self _ _))
  have hfC1 : r ++ '.' :: (splitName image_name).2 ≠ image_name := by
    intro he
    cases hsplit : rsplitDot image_name with
    | some p =>
      obtain ⟨b, e⟩ := p
      have hb : (splitName image_name).1 = b := by
        unfold splitName
        rw [hsplit]
      have he2 : (splitName image_name).2 = e := by
        unfold splitName
        rw [hsplit]
      have hname : image_name = b ++ '.' :: e := rsplitDot_some hsplit
      rw [hb] at hr
      rw [he2, hname, ← hr, List.append_assoc] at he
      have := List.append_cancel_left he
      exact hsufne (List.self_eq_append_left.mp this)
    | none =>
      have hnd : '.' ∉ image_name := rsplitDot_eq_none.mp hsplit
      apply hnd
      rw [← he]
      exact List.mem_append_right _ (List.mem_cons_self _ _)
  have hfC2 : r ++ '.' :: (splitName image_name).2 ∉
      ((state_suffixes.filter fun other => other ≠ suf).map fun other =>
        r ++ other ++ '.' :: (splitName image_name).2) := by
    intro hmem
    rw [List.mem_map] at hmem
    obtain ⟨o, ho, he⟩ := hmem
    have hone : o ≠ [] := state_suffixes_ne_nil o (List.mem_filter.mp ho).1
    rw [List.append_assoc] at he
    have := List.append_cancel_left he
    exact hone (List.append_left_eq_self.mp this)
  have heq : _generate_image_variations image_name =
      image_name ::
        ((state_suffixes.filter fun other => other ≠ suf).map fun other =>
          r ++ other ++ '.' :: (splitName image_name).2) ++
        [r ++ '.' :: (splitName image_name).2] := by
    simp only [_generate_image_variations, hfind, hroot]
    rw [foldl_appendIfNew _ _ [image_name] hfA ?_]
    · unfold appendIfNew
      rw [if_neg ?_]
      · rw [List.cons_append, List.nil_append]
      · intro hmem
        rcases List.mem_append.mp hmem with hm | hm
        · rw [List.mem_singleton] at hm
          exact hfC1 hm
        · exact hfC2 hm
    · intro o ho hmem
      rw [List.mem_singleton] at hmem
      exact hfB o ho hmem
  rw [hroot]
  refine ⟨heq, ?_⟩
  rw [heq]
  refine List.Nodup.append ?_ (List.nodup_singleton _) ?_
  · rw [List.nodup_cons]
    constructor
    · intro hmem
      rw [List.mem_map] at hmem
      obtain ⟨o, ho, he⟩ := hmem
      exact hfB o ho he
    · exact hfA
  · intro a ha hb
    rw [List.mem_singleton] at hb
    subst hb
    rcases List.mem_cons.mp ha with h1 | h1
    · exact hfC1 h1
    · exact hfC2 h1

/-- The no-state-suffix branch of `_generate_image_variations`: the output is
exactly the input followed by the stem with each known suffix appended, in
list order, with no duplicate ever generated. -/
theorem generate_variations_no_suffix {image_name : Name}
    (hfind : state_suffixes.find?
        (fun s => s.isSuffixOf (splitName image_name).1) = none) :
    _generate_image_variations image_name =
      image_name :: (state_suffixes.map fun suf =>
        (splitName image_name).1 ++ suf ++ '.' :: (splitName image_name).2) ∧
    (_generate_image_variations image_name).Nodup := by
  have hfA : (state_suffixes.map fun suf =>
      (splitName image_name).1 ++ suf ++ '.' :: (splitName image_name).2).Nodup := by
    refine List.Nodup.map_on ?_ state_suffixes_nodup
    intro o₁ _ o₂ _ he
    exact mid_inj he
  have hfB : ∀ s ∈ state_suffixes,
      (splitName image_name).1 ++ s ++ '.' :: (splitName image_name).2 ≠ image_name := by
    intro s hs he
    have hsne : s ≠ [] := state_suffixes_ne_nil s hs
    cases hsplit : rsplitDot image_name with
    | some p =>
      obtain ⟨b, e⟩ := p
      have hb : (splitName image_name).1 = b := by
        unfold splitName
        rw [hsplit]
      have he2 : (splitName image_name).2 = e := by
        unfold splitName
        rw [hsplit]
      have hname : image_name = b ++ '.' :: e := rsplitDot_some hsplit
      rw [hb, he2, hname, List.append_assoc] at he
      have := List.append_cancel_left he
      exact hsne (List.append_left_eq_self.mp this)
    | none =>
      have hb : (splitName image_name).1 = image_name := by
        unfold splitName
        rw [hsplit]
      have he2 : (splitName image_name).2 = pngExt := by
        unfold splitName
        rw [hsplit]
      rw [hb, he2] at he
      have hlen := congrArg List.length he
      simp only [List.append_assoc, List.length_append, List.length_cons, pngExt,
        List.length_nil] at hlen
      omega
  have heq : _generate_image_variations image_name =
      image_name :: (state_suffixes.map fun suf =>
        (splitName image_name).1 ++ suf ++ '.' :: (splitName image_name).2) := by
    simp only [_generate_image_variations, hfind]
    rw [foldl_appendIfNew _ _ [image_name] hfA ?_]
    · rw [List.cons_append, List.nil_append]
    · intro s hs hmem
      rw [List.mem_singleton] at hmem
      exact hfB s hs hmem
  refine ⟨heq, ?_⟩
  rw [heq, List.nodup_cons]
  constructor
  · intro hmem
    rw [List.mem_map] at hmem
    obtain ⟨s, hs, he⟩ := hmem
    exact hfB s hs he
  · exact hfA

/-- C6: `_generate_image_variations` returns a duplicate-free list whose
first element is the input name; when the stem ends with a known state suffix
(first match in source order), the remaining elements are the root combined
with every other known suffix followed by the bare root; when it does not,
the remaining elements are the stem with each known suffix appended. -/
theorem c6_generate_image_variations (image_name : Name) :
    (_generate_image_variations image_name).Nodup ∧
    (_generate_image_variations image_name).head? = some image_name ∧
    (∀ suf, state_suffixes.find?
        (fun s => s.isSuffixOf (splitName image_name).1) = some suf →
      _generate_image_variations image_name =
        image_name ::
          ((state_suffixes.filter fun other => other ≠ suf).map fun other =>
            (splitName image_name).1.take ((splitName image_name).1.length - suf.length)
              ++ other ++ '.' :: (splitName image_name).2) ++
          [(splitName image_name).1.take ((splitName image_name).1.length - suf.length)
            ++ '.' :: (splitName image_name).2]) ∧
    (state_suffixes.find? (fun s => s.isSuffixOf (splitName image_name).1) = none →
      _generate_image_variations image_name =
        image_name :: (state_suffixes.map fun suf =>
          (splitName image_name).1 ++ suf ++ '.' :: (splitName image_name).2)) := by
  refine ⟨?_, ?_, ?_, ?_⟩
  · cases hfind : state_suffixes.find? (fun s => s.isSuffixOf (splitName image_name).1) with
    | some suf => exact (generate_variations_suffix hfind).2
    | none => exact (generate_variations_no_suffix hfind).2
  · cases hfind : state_suffixes.find? (fun s => s.isSuffixOf (splitName image_name).1) with
    | some suf =>
      rw [(generate_variations_suffix hfind).1]
      rfl
    | none =>
      rw [(generate_variations_no_suffix hfind).1]
      rfl
  · intro suf hfind
    exact (generate_variations_suffix hfind).1
  · intro hfind
    exact (generate_variations_no_suffix hfind).1

/-- Witness for C6 at the claim's own example: `variantsFor("btn-normal.png")`
is the source-order variant list, starting with the input itself and
containing `"btn-focused.png"` and `"btn.png"`. -/
theorem c6_generate_image_variations_witness :
    (_generate_image_variations ("btn-normal.png".toList)).Nodup ∧
    (_generate_image_variations ("btn-normal.png".toList)).head? =
      some ("btn-normal.png".toList) ∧
    _generate_image_variations ("btn-normal.png".toList) =
      ["btn-normal.png", "btn-focused.png", "btn-focussed.png", "btn-hover.png",
       "btn-pressed.png", "btn-active.png", "btn-disabled.png", "btn-selected.png",
       "btn-highlighted.png", "btn.png"].map String.toList := by
  have h3 := (c6_generate_image_variations ("btn-normal.png".toList)).2.2.1
    ("-normal".toList) (by decide)
  exact ⟨(c6_generate_image_variations _).1, (c6_generate_image_variations _).2.1,
    by rw [h3]; decide⟩

/-- C10: a name with no `'.'` keeps its bare, extensionless form as the first
(highest-priority) variant, while every later generated variant carries the
default `'.png'` extension appended. -/
theorem c10_no_dot_defaults_png (image_name : Name) (h : '.' ∉ image_name) :
    (_generate_image_variations image_name).head? = some image_name ∧
    ∀ v ∈ (_generate_image_variations image_name).tail,
      ∃ s : Name, v = s ++ '.' :: pngExt := by
  have hnone : rsplitDot image_name = none := rsplitDot_eq_none.mpr h
  have he2 : (splitName image_name).2 = pngExt := by
    unfold splitName
    rw [hnone]
  constructor
  · cases hfind : state_suffixes.find? (fun s => s.isSuffixOf (splitName image_name).1) with
    | some suf =>
      rw [(generate_variations_suffix hfind).1]
      rfl
    | none =>
      rw [(generate_variations_no_suffix hfind).1]
      rfl
  · intro v hv
    cases hfind : state_suffixes.find? (fun s => s.isSuffixOf (splitName image_name).1) with
    | some suf =>
      rw [(generate_variations_suffix hfind).1, List.cons_append, List.tail_cons] at hv
      rcases List.mem_append.mp hv with hm | hm
      · rw [List.mem_map] at hm
        obtain ⟨o, ho, heq⟩ := hm
        refine ⟨(splitName image_name).1.take
          ((splitName image_name).1.length - suf.length) ++ o, ?_⟩
        rw [← heq, he2]
      · rw [List.mem_singleton] at hm
        refine ⟨(splitName image_name).1.take
          ((splitName image_name).1.length - suf.length), ?_⟩
        rw [hm, he2]
    | none =>
      rw [(generate_variations_no_suffix hfind).1, List.tail_cons] at hv
      rw [List.mem_map] at hv
      obtain ⟨s, hs, heq⟩ := hv
      refine ⟨(splitName image_name).1 ++ s, ?_⟩
      rw [← heq, he2]

/-- Witness for C10 at the input `"icon"`. -/
theorem c10_no_dot_defaults_png_witness :
    (_generate_image_variations ("icon".toList)).head? = some ("icon".toList) ∧
    ∀ v ∈ (_generate_image_variations ("icon".toList)).tail,
      ∃ s : Name, v = s ++ '.' :: pngExt :=
  c10_no_dot_defaults_png ("icon".toList) (by decide)

/-! ### Stateless view of the animated scan (claims C1 and C7) -/

theorem lookup_append_split {α β : Type} [BEq α] {l₁ l₂ : List (α × β)} {k : α} {v : β}
    (h : (l₁ ++ l₂).lookup k = some v) :
    l₁.lookup k = some v ∨ (l₁.lookup k = none ∧ l₂.lookup k = some v) := by
  induction l₁ with
  | nil => exact Or.inr ⟨rfl, h⟩
  | cons p ps ih =>
    obtain ⟨a, b⟩ := p
    simp only [List.lookup, List.cons_append] at h ⊢
    cases hk : k == a with
    | true =>
      rw [hk] at h
      exact Or.inl h
    | false =>
      rw [hk] at h
      exact ih h

theorem load_template_of_consistent {fs : Name → FsEntry} {sc : ImageScanner}
    (n : Name) (h : CacheConsistent fs sc) :
    (load_template fs sc n).1 =
      (match fs n with
       | .image t => .ok t
       | .absent => .error .notFound
       | .undecodable => .error .decodeError) ∧
    CacheConsistent fs (load_template fs sc n).2.1 := by
  cases hc : sc.cache.lookup n with
  | some t =>
    rw [load_template_of_hit hc]
    refine ⟨?_, h⟩
    rw [h n t hc]
  | none =>
    have heq := load_template_eq_of_miss fs hc
    cases hf : fs n with
    | absent =>
      rw [hf] at heq
      rw [heq]
      exact ⟨rfl, h⟩
    | undecodable =>
      rw [hf] at heq
      rw [heq]
      exact ⟨rfl, h⟩
    | image t =>
      rw [hf] at heq
      rw [heq]
      refine ⟨rfl, ?_⟩
      intro m u hm
      rcases lookup_append_split hm with hl | ⟨_, hl⟩
      · exact h m u hl
      · simp only [List.lookup] at hl
        cases hk : m == n with
        | false =>
          rw [hk] at hl
          cases hl
        | true =>
          rw [hk] at hl
          injection hl with hl
          subst hl
          rw [eq_of_beq hk, hf]

theorem scanVariations_spec (fs : Name → FsEntry) (score : Name → Nat → Nat → Nat → ℚ)
    (bounding_box : Int × Int × Int × Int) (click_offset : Int × Int)
    (attempt bw bh : Nat) (threshold : ℚ) :
    ∀ (vs : List Name) (sc : ImageScanner), CacheConsistent fs sc →
    ∃ sc', scanVariations fs score bounding_box click_offset attempt bw bh threshold sc vs
        = (vs.findSome?
            (specFindVariant fs score bounding_box click_offset attempt bw bh threshold),
           sc')
      ∧ CacheConsistent fs sc' := by
  intro vs
  induction vs with
  | nil =>
    intro sc h
    exact ⟨sc, rfl, h⟩
  | cons v vs ih =>
    intro sc h
    rw [List.findSome?_cons]
    simp only [scanVariations]
    obtain ⟨hfst, hcons⟩ := load_template_of_consistent v h
    split
    · rename_i e sc₁ reads heq
      rw [heq] at hfst hcons
      have hcons₁ : CacheConsistent fs sc₁ := hcons
      have hspec : specFindVariant fs score bounding_box click_offset attempt bw bh
          threshold v = none := by
        unfold specFindVariant
        cases hf : fs v with
        | image t =>
          rw [hf] at hfst
          cases hfst
        | absent => rfl
        | undecodable => rfl
      rw [hspec]
      obtain ⟨sc₂, hrec, hcons₂⟩ := ih sc₁ hcons₁
      exact ⟨sc₂, hrec, hcons₂⟩
    · rename_i t sc₁ reads heq
      rw [heq] at hfst hcons
      have hcons₁ : CacheConsistent fs sc₁ := hcons
      have hf : fs v = .image t := by
        cases hfv : fs v with
        | image t' =>
          rw [hfv] at hfst
          have : (Except.ok t : Except LoadError Template) = Except.ok t' := hfst
          injection this with ht
          rw [ht]
        | absent =>
          rw [hfv] at hfst
          cases hfst
        | undecodable =>
          rw [hfv] at hfst
          cases hfst
      split
      · rename_i heq2
        have hspec : specFindVariant fs score bounding_box click_offset attempt bw bh
            threshold v = none := by
          unfold specFindVariant
          simp only [hf, heq2]
        rw [hspec]
        obtain ⟨sc₂, hrec, hcons₂⟩ := ih sc₁ hcons₁
        exact ⟨sc₂, hrec, hcons₂⟩
      · rename_i x y c heq2
        have hspec : specFindVariant fs score bounding_box click_offset attempt bw bh
            threshold v =
            some (bounding_box.1 + ((x + t.width / 2 : Nat) : Int) + click_offset.1,
                  bounding_box.2.1 + ((y + t.height / 2 : Nat) : Int) + click_offset.2) := by
          unfold specFindVariant
          simp only [hf, heq2]
        rw [hspec]
        exact ⟨sc₁, rfl, hcons₁⟩

theorem scanThresholds_spec (fs : Name → FsEntry) (score : Name → Nat → Nat → Nat → ℚ)
    (bounding_box : Int × Int × Int × Int) (click_offset : Int × Int)
    (attempt bw bh : Nat) (vars : List Name) :
    ∀ (ths : List ℚ) (sc : ImageScanner), CacheConsistent fs sc →
    ∃ sc', scanThresholds fs score bounding_box click_offset attempt bw bh vars sc ths
        = (ths.findSome? fun t => vars.findSome?
            (specFindVariant fs score bounding_box click_offset attempt bw bh t), sc')
      ∧ CacheConsistent fs sc' := by
  intro ths
  induction ths with
  | nil =>
    intro sc h
    exact ⟨sc, rfl, h⟩
  | cons t ts ih =>
    intro sc h
    rw [List.findSome?_cons]
    simp only [scanThresholds]
    obtain ⟨sc₁, hv, hcons₁⟩ :=
      scanVariations_spec fs score bounding_box click_offset attempt bw bh t vars sc h
    rw [hv]
    cases hw : vars.findSome?
        (specFindVariant fs score bounding_box click_offset attempt bw bh t) with
    | some r =>
      exact ⟨sc₁, rfl, hcons₁⟩
    | none =>
      obtain ⟨sc₂, hrec, hcons₂⟩ := ih sc₁ hcons₁
      exact ⟨sc₂, hrec, hcons₂⟩

theorem scanAttempts_spec (capture : Nat → Option (Nat × Nat)) (fs : Name → FsEntry)
    (score : Name → Nat → Nat → Nat → ℚ) (bounding_box : Int × Int × Int × Int)
    (click_offset : Int × Int) (ths : List ℚ) (vars : List Name) :
    ∀ (attempts : List Nat) (sc : ImageScanner), CacheConsistent fs sc →
    ∃ sc', scanAttempts capture fs score bounding_box click_offset ths vars sc attempts
        = (specSearchOn capture fs score bounding_box click_offset ths attempts vars, sc')
      ∧ CacheConsistent fs sc' := by
  intro attempts
  induction attempts with
  | nil =>
    intro sc h
    exact ⟨sc, rfl, h⟩
  | cons a as ih =>
    intro sc h
    simp only [scanAttempts]
    split
    · rename_i hc
      have hspec : specAttempt capture fs score bounding_box click_offset ths vars a
          = none := by
        unfold specAttempt
        rw [hc]
      unfold specSearchOn
      rw [List.findSome?_cons, hspec]
      obtain ⟨sc₂, hrec, hcons₂⟩ := ih sc h
      exact ⟨sc₂, hrec, hcons₂⟩
    · rename_i bw bh hc
      have hspec : specAttempt capture fs score bounding_box click_offset ths vars a
          = ths.findSome? fun t => vars.findSome?
              (specFindVariant fs score bounding_box click_offset a bw bh t) := by
        unfold specAttempt
        rw [hc]
      unfold specSearchOn
      rw [List.findSome?_cons, hspec]
      obtain ⟨sc₁, hts, hcons₁⟩ :=
        scanThresholds_spec fs score bounding_box click_offset a bw bh vars ths sc h
      rw [hts]
      cases hw : ths.findSome? fun t => vars.findSome?
          (specFindVariant fs score bounding_box click_offset a bw bh t) with
      | some r =>
        exact ⟨sc₁, rfl, hcons₁⟩
      | none =>
        obtain ⟨sc₂, hrec, hcons₂⟩ := ih sc₁ hcons₁
        exact ⟨sc₂, hrec, hcons₂⟩

/-- Main bridge: under a filesystem-consistent cache, the stateful
`_scan_animated_image` computes exactly the stateless first-success search
over `range max_attempts × animThresholds × variations`. -/
theorem scan_animated_eq_spec (capture : Nat → Option (Nat × Nat)) (fs : Name → FsEntry)
    (score : Name → Nat → Nat → Nat → ℚ) (sc : ImageScanner) (image_name : Name)
    (bounding_box : Int × Int × Int × Int) (base_threshold : ℚ)
    (click_offset : Int × Int) (max_attempts : Nat) (h : CacheConsistent fs sc) :
    (_scan_animated_image capture fs score sc image_name bounding_box base_threshold
        click_offset max_attempts).1
      = specSearchOn capture fs score bounding_box click_offset
          (animThresholds base_threshold) (List.range max_attempts)
          (_generate_image_variations image_name) := by
  obtain ⟨sc', heq, _⟩ := scanAttempts_spec capture fs score bounding_box click_offset
    (animThresholds base_threshold) (_generate_image_variations image_name)
    (List.range max_attempts) sc h
  unfold _scan_animated_image
  rw [heq]

theorem specThresholdSchedule_eq (base : ℚ) :
    specThresholdSchedule base = animThresholds base := by
  unfold specThresholdSchedule animThresholds
  norm_num

theorem specAttempt_as_flat (capture : Nat → Option (Nat × Nat)) (fs : Name → FsEntry)
    (score : Name → Nat → Nat → Nat → ℚ) (bounding_box : Int × Int × Int × Int)
    (click_offset : Int × Int) (ths : List ℚ) (vars : List Name) (a : Nat) :
    specAttempt capture fs score bounding_box click_offset ths vars a
      = ths.findSome? fun t => vars.findSome? fun v =>
          match capture a with
          | none => none
          | some (bw, bh) =>
            specFindVariant fs score bounding_box click_offset a bw bh t v := by
  unfold specAttempt
  cases capture a with
  | none =>
    symm
    apply findSome?_of_forall_none
    intro t _
    apply findSome?_of_forall_none
    intro v _
    rfl
  | some p =>
    obtain ⟨bw, bh⟩ := p
    rfl

/-- C1: with any filesystem-consistent scanner state, `_scan_animated_image`
computes exactly the spec's flat lexicographic first-success search over
`(attempt, threshold, variant)` triples: attempts outermost (each with the
fresh capture of that attempt), the clamped six-entry threshold schedule
next, variant names innermost; the first triple whose `findBest` succeeds
determines the returned absolute center coordinate, and only exhausting all
`max_attempts` attempts yields `None`. -/
theorem c1_scan_animated_is_flat_first_success (capture : Nat → Option (Nat × Nat))
    (fs : Name → FsEntry) (score : Name → Nat → Nat → Nat → ℚ) (sc : ImageScanner)
    (image_name : Name) (bounding_box : Int × Int × Int × Int) (base_threshold : ℚ)
    (click_offset : Int × Int) (max_attempts : Nat) (h : CacheConsistent fs sc) :
    (_scan_animated_image capture fs score sc image_name bounding_box base_threshold
        click_offset max_attempts).1
      = locateAnimatedSpec capture fs score image_name bounding_box click_offset
          base_threshold max_attempts := by
  rw [scan_animated_eq_spec capture fs score sc image_name bounding_box base_threshold
    click_offset max_attempts h]
  unfold specSearchOn locateAnimatedSpec
  simp only [findSome?_flatMap, findSome?_map, specThresholdSchedule_eq]
  apply findSome?_congrOn
  intro a _
  rw [specAttempt_as_flat]
  apply findSome?_congrOn
  intro t _
  apply findSome?_congrOn
  intro v _
  rfl

/-- Witness for C1: a fresh scanner over a one-pixel world where everything
matches on the first triple. -/
theorem c1_scan_animated_is_flat_first_success_witness :
    (_scan_animated_image (fun _ => some (1, 1)) (fun _ => .image ⟨1, 1⟩)
        (fun _ _ _ _ => 1) ⟨[]⟩ ['a'] (0, 0, 1, 1) (mkRat 8 10) (0, 0) 2).1
      = locateAnimatedSpec (fun _ => some (1, 1)) (fun _ => .image ⟨1, 1⟩)
          (fun _ _ _ _ => 1) ['a'] (0, 0, 1, 1) (0, 0) (mkRat 8 10) 2 :=
  c1_scan_animated_is_flat_first_success (fun _ => some (1, 1))
    (fun _ => .image ⟨1, 1⟩) (fun _ _ _ _ => 1) ⟨[]⟩ ['a'] (0, 0, 1, 1) (mkRat 8 10)
    (0, 0) 2 (fun _ _ hl => Option.noConfusion hl)

theorem specAttempt_congr_vars {capture : Nat → Option (Nat × Nat)} {fs : Name → FsEntry}
    {score : Name → Nat → Nat → Nat → ℚ} {bounding_box : Int × Int × Int × Int}
    {click_offset : Int × Int} {ths : List ℚ} {vars₁ vars₂ : List Name}
    (hv : ∀ a bw bh t, vars₁.findSome?
        (specFindVariant fs score bounding_box click_offset a bw bh t)
      = vars₂.findSome? (specFindVariant fs score bounding_box click_offset a bw bh t))
    (a : Nat) :
    specAttempt capture fs score bounding_box click_offset ths vars₁ a
      = specAttempt capture fs score bounding_box click_offset ths vars₂ a := by
  unfold specAttempt
  cases capture a with
  | none => rfl
  | some p =>
    obtain ⟨bw, bh⟩ := p
    exact findSome?_congrOn _ _ ths fun t _ => hv a bw bh t

/-- C7: inside `_scan_animated_image`, a missing variant file and a failed
capture are both swallowed: the whole search computes exactly the stateless
first-success search in which the failed attempt is removed from the attempt
list and the missing variant is removed from the variation list — neither
error escapes, and the result is still an ordinary coordinate-or-`None`. -/
theorem c7_animated_swallows_errors (capture : Nat → Option (Nat × Nat))
    (fs : Name → FsEntry) (score : Name → Nat → Nat → Nat → ℚ) (sc : ImageScanner)
    (image_name : Name) (bounding_box : Int × Int × Int × Int) (base_threshold : ℚ)
    (click_offset : Int × Int) (max_attempts : Nat) (i : Nat) (v : Name)
    (h : CacheConsistent fs sc) (hcap : capture i = none) (hvar : fs v = .absent) :
    (_scan_animated_image capture fs score sc image_name bounding_box base_threshold
        click_offset max_attempts).1
      = specSearchOn capture fs score bounding_box click_offset
          (animThresholds base_threshold)
          ((List.range max_attempts).filter fun a => a ≠ i)
          ((_generate_image_variations image_name).filter fun w => w ≠ v) := by
  rw [scan_animated_eq_spec capture fs score sc image_name bounding_box base_threshold
    click_offset max_attempts h]
  unfold specSearchOn
  have hvar_none : ∀ a bw bh t, specFindVariant fs score bounding_box click_offset
      a bw bh t v = none := by
    intro a bw bh t
    unfold specFindVariant
    rw [hvar]
  have hv : ∀ a bw bh t,
      (_generate_image_variations image_name).findSome?
        (specFindVariant fs score bounding_box click_offset a bw bh t)
      = ((_generate_image_variations image_name).filter fun w => w ≠ v).findSome?
        (specFindVariant fs score bounding_box click_offset a bw bh t) := by
    intro a bw bh t
    apply findSome?_filterOut
    intro x _ hfalse
    have hx : x = v := by simpa using hfalse
    rw [hx]
    exact hvar_none a bw bh t
  rw [findSome?_congrOn _ _ (List.range max_attempts)
    (fun a _ => specAttempt_congr_vars hv a)]
  apply findSome?_filterOut
  intro x _ hfalse
  have hx : x = i := by simpa using hfalse
  rw [hx]
  unfold specAttempt
  rw [hcap]

/-- Witness for C7: capture fails on attempt 0 and variant `"z"` is missing
from the filesystem; the search still just computes the filtered search. -/
theorem c7_animated_swallows_errors_witness :
    (_scan_animated_image (fun a => if a = 0 then none else some (1, 1))
        (fun n => if n = ['z'] then .absent else .image ⟨1, 1⟩)
        (fun _ _ _ _ => 1) ⟨[]⟩ ['a'] (0, 0, 1, 1) (mkRat 8 10) (0, 0) 2).1
      = specSearchOn (fun a => if a = 0 then none else some (1, 1))
          (fun n => if n = ['z'] then .absent else .image ⟨1, 1⟩)
          (fun _ _ _ _ => 1) (0, 0, 1, 1) (0, 0) (animThresholds (mkRat 8 10))
          ((List.range 2).filter fun a => a ≠ 0)
          ((_generate_image_variations ['a']).filter fun w => w ≠ ['z']) :=
  c7_animated_swallows_errors (fun a => if a = 0 then none else some (1, 1))
    (fun n => if n = ['z'] then .absent else .image ⟨1, 1⟩) (fun _ _ _ _ => 1) ⟨[]⟩
    ['a'] (0, 0, 1, 1) (mkRat 8 10) (0, 0) 2 0 ['z']
    (fun _ _ hl => Option.noConfusion hl) (by rfl) (by rfl)

end AutoReplay
